import Mathlib

/-!
Verification development for the `spark` terminal dashboard's resource
collection and aggregation pipeline.

The Rust sources are shallowly embedded as executable Lean definitions:

* Rust `String`/`&str` values become Lean `String` (a list of characters);
  inputs of interest are ASCII, and byte-index based operations of the
  source (`find`, slicing at `char_indices` positions) coincide with the
  character-index operations used here on such inputs.  `to_lowercase` /
  `to_ascii_lowercase` are modelled by ASCII lowercasing.
* `u16`/`u32`/`u64`/`usize` become `Nat`; where the source relies on
  wrapping or saturating 64-bit arithmetic this is made explicit with
  `% 2 ^ 64` / `min _ u64MAX`.
* `f32` fields (CPU percentages) become `ℚ`; the decimal strings parsed by
  the source in the scenarios considered here are exactly representable,
  so exact rational arithmetic is faithful there.
* `HashMap` snapshots become association lists (`List (key × value)`);
  Rust's `HashMap` iteration order is unspecified, the embedding fixes
  insertion order.  All results proved below are either order-independent
  or stated for the embedding's deterministic order.
* Filesystem and external-process reads (`/proc` PSS values, cgroup paths,
  CLI invocations) are passed in as explicit oracle functions.
-/

/-! ## ASCII string primitives (Rust `str` operations) -/

/-- Rust `char::is_whitespace` restricted to the ASCII whitespace that occurs
in the inputs handled by the collectors. -/
def isWs (c : Char) : Bool :=
  c == ' ' || c == '\t' || c == '\n' || c == '\r'

/-- Rust `char::to_ascii_lowercase`. -/
def charLower (c : Char) : Char :=
  if 'A' ≤ c ∧ c ≤ 'Z' then Char.ofNat (c.toNat + 32) else c

/-- Rust `str::to_ascii_lowercase` / `str::to_lowercase` on ASCII input. -/
def asciiLower (s : String) : String :=
  ⟨s.data.map charLower⟩

/-- `str::trim` on a character list. -/
def trimChars (l : List Char) : List Char :=
  ((l.dropWhile isWs).reverse.dropWhile isWs).reverse

/-- Rust `str::trim`. -/
def rustTrim (s : String) : String :=
  ⟨trimChars s.data⟩

/-- Whether `pat` is a prefix of `l` (Rust `str::starts_with`). -/
def isPrefixB : List Char → List Char → Bool
  | [], _ => true
  | _ :: _, [] => false
  | a :: as_, b :: bs => a == b && isPrefixB as_ bs

/-- Rust `str::starts_with`. -/
def startsWithB (s pat : String) : Bool :=
  isPrefixB pat.data s.data

/-- First position (character index) where `needle` occurs in the haystack;
Rust `str::find` with a string pattern (byte index; identical on ASCII). -/
def findSubFrom (needle : List Char) : List Char → Nat → Option Nat
  | [], i => if isPrefixB needle [] then some i else none
  | c :: t, i =>
    if isPrefixB needle (c :: t) then some i else findSubFrom needle t (i + 1)

/-- Rust `str::contains` with a string pattern. -/
def containsSubstr (hay needle : String) : Bool :=
  (findSubFrom needle.data hay.data 0).isSome

theorem isPrefixB_length_le : ∀ pat l : List Char, isPrefixB pat l = true → pat.length ≤ l.length := by
  intro pat
  induction pat with
  | nil => intro l _; simp
  | cons a as_ ih =>
    intro l h
    cases l with
    | nil => simp [isPrefixB] at h
    | cons b bs =>
      simp only [isPrefixB, Bool.and_eq_true] at h
      simpa using ih bs h.2

/-- Loop of `str::trim_start_matches`; every iteration strips at least one
character, so `l.length` rounds of fuel always reach the fixpoint. -/
def stripStartAux (pat : List Char) : Nat → List Char → List Char
  | 0, l => l
  | fuel + 1, l =>
    if pat ≠ [] ∧ isPrefixB pat l = true then stripStartAux pat fuel (l.drop pat.length)
    else l

/-- Rust `str::trim_start_matches`: repeatedly strip the pattern prefix. -/
def stripStartMatches (pat : List Char) (l : List Char) : List Char :=
  stripStartAux pat l.length l

/-- Rust `str::trim_end_matches`: repeatedly strip the pattern suffix. -/
def stripEndMatches (pat : List Char) (l : List Char) : List Char :=
  (stripStartMatches pat.reverse l.reverse).reverse

/-- Rust `str::split_whitespace` (non-empty maximal runs of non-whitespace). -/
def splitWsAux : List Char → List Char → List (List Char)
  | [], cur => if cur = [] then [] else [cur.reverse]
  | c :: t, cur =>
    if isWs c then
      (if cur = [] then splitWsAux t [] else cur.reverse :: splitWsAux t [])
    else splitWsAux t (c :: cur)

/-- Rust `str::split_whitespace` returning strings. -/
def splitWs (s : String) : List String :=
  (splitWsAux s.data []).map (fun l => ⟨l⟩)

/-- Numeric value of an ASCII digit. -/
def digitVal (c : Char) : Nat := c.toNat - 48

/-- Parse a non-empty all-digit string to a `Nat`. -/
def parseNatDigits (l : List Char) : Option Nat :=
  if l = [] then none
  else if l.all Char.isDigit then some (l.foldl (fun acc c => acc * 10 + digitVal c) 0)
  else none

/-- Rust `str::parse::<u64>()`: optional leading `+`, digits, bounded by `u64`. -/
def parseU64 (l : List Char) : Option Nat :=
  let digits := match l with
    | '+' :: rest => rest
    | other => other
  match parseNatDigits digits with
  | some n => if n < 2 ^ 64 then some n else none
  | none => none

/-- `u64::MAX`. -/
def u64MAX : Nat := 2 ^ 64 - 1

/-- `u64::saturating_add`. -/
def satAdd (a b : Nat) : Nat := min (a + b) u64MAX

/-- `u64::saturating_mul`. -/
def satMul (a b : Nat) : Nat := min (a * b) u64MAX

/-! ## Label Grouping Engine (src/system/ports/mod.rs `group_ports` and
src/system/node/mod.rs `build_grouped_rows` share this algorithm verbatim). -/

/-- `group_token_from_label` (identical in ports/mod.rs and node/mod.rs):
the label's leading word up to the first whitespace or one of `| : - _`,
falling back to the whole trimmed label when that leading word is empty. -/
def groupTokenFromLabel (label : String) : String :=
  let trimmed := trimChars label.data
  let headChars := trimmed.takeWhile (fun c =>
    !(isWs c || c == '|' || c == ':' || c == '-' || c == '_'))
  let token := trimChars headChars
  if token = [] then ⟨trimmed⟩ else ⟨token⟩

/-- The case-insensitive token key of a label. -/
def tokenKeyOf (label : String) : String :=
  asciiLower (groupTokenFromLabel label)

/-- The `token_counts` map of the grouping loops: occurrences of a
(non-empty) token key across all labels. -/
def tokenCountsOf (labels : List String) (key : String) : Nat :=
  if key = "" then 0 else (labels.map tokenKeyOf).count key

/-- The `(group_key, group_label)` pair chosen for one item, given the full
label list (which determines token counts). -/
def groupChoiceFor (labels : List String) (label : String) : String × String :=
  let token := groupTokenFromLabel label
  let tk := asciiLower token
  if tokenCountsOf labels tk > 1 ∧ tk ≠ "" then
    ("token::" ++ tk, token)
  else
    ("label::" ++ asciiLower label, label)

/-- One bucket of the grouping loop: `groups` entry plus its `group_map` key. -/
structure GroupBucket where
  key : String
  name : String
  items : List Nat
deriving Repr, DecidableEq

/-- The body of the grouping loop: append the item to the bucket with its
group key, creating the bucket at the end in first-seen order. -/
def insertBucket : List GroupBucket → String → String → Nat → List GroupBucket
  | [], key, name, idx => [⟨key, name, [idx]⟩]
  | b :: rest, key, name, idx =>
    if b.key = key then { b with items := b.items ++ [idx] } :: rest
    else b :: insertBucket rest key name idx

/-- The grouping loop over `(emitted index, label)` pairs, with token counts
taken from the fixed label list `labels`. -/
def engineBucketsAux (labels : List String) (pairs : List (Nat × String))
    (acc : List GroupBucket) : List GroupBucket :=
  pairs.foldl (fun acc p =>
    let choice := groupChoiceFor labels p.2
    insertBucket acc choice.1 choice.2 p.1) acc

/-- Both grouping loops: count tokens over all labels, then bucket every item. -/
def engineBuckets (pairs : List (Nat × String)) : List GroupBucket :=
  engineBucketsAux (pairs.map Prod.snd) pairs []

/-! ## Ports collector data model (src/system/ports/mod.rs) -/

/-- `PortInfo` (pid is `sysinfo::Pid`, a process id number; 0 = no OS process). -/
structure PortInfo where
  proto : String
  port : Nat
  pid : Nat
  name : String
  exe_path : String
  container_id : Option String
  group_name : Option String
  project_name : Option String
deriving Repr, DecidableEq

/-- `PortRow`. -/
inductive PortRow where
  | Group (name : String) (count : Nat)
  | Item (index : Nat)
deriving Repr, DecidableEq

/-- `display_group_label`: trimmed text after the last `:`, or the whole
trimmed name when there is no `:` or nothing follows it. -/
def lastIdxOf (c : Char) (l : List Char) : Option Nat :=
  ((l.enum.filter (fun p => p.2 == c)).map Prod.fst).getLast?

/-- `display_group_label` from ports/mod.rs (`rsplit_once(':')`). -/
def displayGroupLabel (name : String) : String :=
  let trimmed := trimChars name.data
  match lastIdxOf ':' trimmed with
  | none => ⟨trimmed⟩
  | some i =>
    let tail := trimChars (trimmed.drop (i + 1))
    if tail = [] then ⟨trimmed⟩ else ⟨tail⟩

/-- `group_label_for_port`: trimmed project name, else trimmed group name,
else the display label derived from the process name. -/
def groupLabelForPort (p : PortInfo) : String :=
  let fromProject : Option String :=
    match p.project_name with
    | some pn => let cl := rustTrim pn; if cl = "" then none else some cl
    | none => none
  match fromProject with
  | some v => v
  | none =>
    let fromGroup : Option String :=
      match p.group_name with
      | some gn => let cl := rustTrim gn; if cl = "" then none else some cl
      | none => none
    match fromGroup with
    | some v => v
    | none => displayGroupLabel p.name

/-- Emit the final row list of `group_ports` from the computed buckets. -/
def portRowsOfBuckets (bs : List GroupBucket) : List PortRow :=
  bs.flatMap (fun b => PortRow.Group b.name b.items.length :: b.items.map PortRow.Item)

/-- `group_ports` (ports/mod.rs lines 76–145). -/
def group_ports (ports : List PortInfo) : List PortRow :=
  if ports.isEmpty then []
  else portRowsOfBuckets (engineBuckets (ports.map groupLabelForPort).enum)

/-! ## Node collector data model (src/system/node/mod.rs) -/

/-- `Pm2Info`. -/
structure Pm2Info where
  pm_id : Nat
  name : String
  mode : String
  status : String
  restarts : Nat
  pm2_uptime : Option Nat
deriving Repr, DecidableEq

/-- `NodeProcessInfo`; `cpu : f32` is embedded as `ℚ`. -/
structure NodeProcessInfo where
  pid : Nat
  name : String
  script : String
  project_name : Option String
  uses_nvm : Bool
  node_version : Option String
  cpu : ℚ
  memory_bytes : Nat
  uptime_secs : Option Nat
  pm2 : Option Pm2Info
  worker_count : Nat
deriving Repr, DecidableEq

/-- Placeholder used for the out-of-bounds indexing that would panic in the
source (`&processes[idx]`); never reached for valid index lists. -/
def nodeDefault : NodeProcessInfo :=
  ⟨0, "", "", none, false, none, 0, 0, none, none, 1⟩

/-- `NodeRow`. -/
inductive NodeRow where
  | Group (name : String) (count : Nat)
  | Item (index : Nat)
  | UtilsSpacer
  | UtilsTitle
  | UtilsTop
  | UtilsHeader
  | UtilsSeparator
deriving Repr, DecidableEq

/-- `group_label_for_node`: trimmed project name if non-empty, else the
trimmed process name. -/
def groupLabelForNode (p : NodeProcessInfo) : String :=
  match p.project_name with
  | some n => let t := rustTrim n; if t = "" then rustTrim p.name else t
  | none => rustTrim p.name

/-- Emit the final row list of `build_grouped_rows` from the buckets. -/
def nodeRowsOfBuckets (bs : List GroupBucket) : List NodeRow :=
  bs.flatMap (fun b => NodeRow.Group b.name b.items.length :: b.items.map NodeRow.Item)

/-- `build_grouped_rows` (node/mod.rs lines 227–300): same loop as
`group_ports`, over the labels of `indices`, emitting `original_idx + offset`. -/
def build_grouped_rows (processes : List NodeProcessInfo) (indices : List Nat)
    (offset : Nat) : List NodeRow :=
  if indices.isEmpty then []
  else nodeRowsOfBuckets (engineBuckets (indices.map (fun idx =>
    (idx + offset, groupLabelForNode (processes.getD idx nodeDefault)))))

/-- `group_node_processes`. -/
def group_node_processes (processes : List NodeProcessInfo) (offset : Nat) : List NodeRow :=
  if processes.isEmpty then []
  else build_grouped_rows processes (List.range processes.length) offset

/-! ## Partition properties of the grouping engine -/

/-- All item indices stored in a bucket list, in bucket order. -/
def itemsJoin (bs : List GroupBucket) : List Nat :=
  bs.flatMap GroupBucket.items

/-- The `group_map` keys of a bucket list, in first-seen order. -/
def keysOf (bs : List GroupBucket) : List String :=
  bs.map GroupBucket.key

/-- Inserting an item adds exactly that index to the stored multiset. -/
theorem itemsJoin_insertBucket (bs : List GroupBucket) (k n : String) (i : Nat) :
    List.Perm (itemsJoin (insertBucket bs k n i)) (itemsJoin bs ++ [i]) := by
  induction bs with
  | nil => simp [itemsJoin, insertBucket]
  | cons b rest ih =>
    by_cases hk : b.key = k
    · rw [show insertBucket (b :: rest) k n i = { b with items := b.items ++ [i] } :: rest from
        by simp [insertBucket, hk]]
      simp only [itemsJoin, List.flatMap_cons, List.append_assoc]
      exact List.Perm.append_left b.items List.perm_append_comm
    · rw [show insertBucket (b :: rest) k n i = b :: insertBucket rest k n i from
        by simp [insertBucket, hk]]
      simp only [itemsJoin, List.flatMap_cons, List.append_assoc]
      exact List.Perm.append_left b.items ih

/-- The grouping loop emits every processed index exactly once. -/
theorem itemsJoin_engineBucketsAux (L : List String) :
    ∀ (pairs : List (Nat × String)) (acc : List GroupBucket),
      List.Perm (itemsJoin (engineBucketsAux L pairs acc))
        (itemsJoin acc ++ pairs.map Prod.fst) := by
  intro pairs
  induction pairs with
  | nil => intro acc; simp [engineBucketsAux]
  | cons p rest ih =>
    intro acc
    have hstep := itemsJoin_insertBucket acc (groupChoiceFor L p.2).1 (groupChoiceFor L p.2).2 p.1
    have htail := ih (insertBucket acc (groupChoiceFor L p.2).1 (groupChoiceFor L p.2).2 p.1)
    have : engineBucketsAux L (p :: rest) acc
        = engineBucketsAux L rest (insertBucket acc (groupChoiceFor L p.2).1 (groupChoiceFor L p.2).2 p.1) := by
      simp [engineBucketsAux]
    rw [this]
    refine htail.trans ?_
    have := hstep.append_right (rest.map Prod.fst)
    simpa [List.append_assoc] using this

/-- `engineBuckets` partitions the pair indices. -/
theorem itemsJoin_engineBuckets (pairs : List (Nat × String)) :
    List.Perm (itemsJoin (engineBuckets pairs)) (pairs.map Prod.fst) := by
  simpa [itemsJoin] using itemsJoin_engineBucketsAux (pairs.map Prod.snd) pairs []

/-- Appending a key to a first-seen key list. -/
def pushNew (ks : List String) (k : String) : List String :=
  if k ∈ ks then ks else ks ++ [k]

/-- `pushNew` skips past a non-matching head. -/
theorem pushNew_cons (a : String) (ks : List String) (k : String) (h : ¬ k = a) :
    pushNew (a :: ks) k = a :: pushNew ks k := by
  unfold pushNew
  by_cases hm : k ∈ ks
  · rw [if_pos hm, if_pos (List.mem_cons_of_mem a hm)]
  · rw [if_neg hm, if_neg (by simp [List.mem_cons, h, hm]), List.cons_append]

/-- Inserting an item touches the key list exactly like `pushNew`. -/
theorem keysOf_insertBucket (bs : List GroupBucket) (k n : String) (i : Nat) :
    keysOf (insertBucket bs k n i) = pushNew (keysOf bs) k := by
  induction bs with
  | nil => simp [keysOf, insertBucket, pushNew]
  | cons b rest ih =>
    by_cases hk : b.key = k
    · rw [show insertBucket (b :: rest) k n i = { b with items := b.items ++ [i] } :: rest from
        by simp [insertBucket, hk]]
      show b.key :: keysOf rest = pushNew (b.key :: keysOf rest) k
      unfold pushNew
      rw [if_pos (show k ∈ b.key :: keysOf rest from by
        rw [hk]; exact List.mem_cons_self k (keysOf rest))]
    · rw [show insertBucket (b :: rest) k n i = b :: insertBucket rest k n i from
        by simp [insertBucket, hk]]
      have hne : ¬ k = b.key := fun h => hk h.symm
      show b.key :: keysOf (insertBucket rest k n i) = pushNew (b.key :: keysOf rest) k
      rw [ih, pushNew_cons b.key (keysOf rest) k hne]

/-- The loop's key list is a `pushNew`-fold over the assigned group keys. -/
theorem keysOf_engineBucketsAux (L : List String) :
    ∀ (pairs : List (Nat × String)) (acc : List GroupBucket),
      keysOf (engineBucketsAux L pairs acc)
        = (pairs.map (fun p => (groupChoiceFor L p.2).1)).foldl pushNew (keysOf acc) := by
  intro pairs
  induction pairs with
  | nil => intro acc; simp [engineBucketsAux]
  | cons p rest ih =>
    intro acc
    have : engineBucketsAux L (p :: rest) acc
        = engineBucketsAux L rest (insertBucket acc (groupChoiceFor L p.2).1 (groupChoiceFor L p.2).2 p.1) := by
      simp [engineBucketsAux]
    rw [this, ih, List.map_cons, List.foldl_cons, keysOf_insertBucket]

/-- A `pushNew`-fold keeps the key list duplicate-free. -/
theorem pushNewFold_nodup :
    ∀ (l : List String) (init : List String), init.Nodup → (l.foldl pushNew init).Nodup := by
  intro l
  induction l with
  | nil => intro init h; simpa using h
  | cons a t ih =>
    intro init h
    rw [List.foldl_cons]
    refine ih _ ?_
    unfold pushNew
    by_cases hm : a ∈ init
    · simpa [hm] using h
    · simp [hm, List.nodup_append, h]

/-- Membership in a `pushNew`-fold. -/
theorem mem_pushNewFold :
    ∀ (l : List String) (init : List String) (x : String),
      x ∈ l.foldl pushNew init ↔ x ∈ init ∨ x ∈ l := by
  intro l
  induction l with
  | nil => intro init x; simp
  | cons a t ih =>
    intro init x
    rw [List.foldl_cons, ih]
    unfold pushNew
    by_cases hm : a ∈ init
    · by_cases hx : x = a
      · subst hx; simp [hm]
      · simp [hm, hx]
    · simp only [if_neg hm, List.mem_append, List.mem_singleton, List.mem_cons]
      tauto

/-- The `pushNew`-fold of a key list has as many entries as there are
distinct keys. -/
theorem pushNewFold_length (l : List String) :
    (l.foldl pushNew []).length = l.dedup.length := by
  have hn : (l.foldl pushNew []).Nodup := pushNewFold_nodup l [] (by simp)
  have hts : (l.foldl pushNew []).toFinset = l.toFinset := by
    apply Finset.ext
    intro x
    simp [List.mem_toFinset, mem_pushNewFold l [] x]
  calc (l.foldl pushNew []).length
      = (l.foldl pushNew []).toFinset.card := (List.toFinset_card_of_nodup hn).symm
    _ = l.toFinset.card := by rw [hts]
    _ = l.dedup.length := List.card_toFinset l

/-- Predicate: a `PortRow` is a `Group` row. -/
def isPortGroup : PortRow → Bool
  | .Group _ _ => true
  | _ => false

/-- Predicate: a `PortRow` is an `Item` row. -/
def isPortItem : PortRow → Bool
  | .Item _ => true
  | _ => false

/-- The indices carried by the `Item` rows, in emission order. -/
def portItemIndices (rows : List PortRow) : List Nat :=
  rows.filterMap (fun r => match r with | .Item i => some i | _ => none)

/-- The number of `Group` rows. -/
def portGroupCount (rows : List PortRow) : Nat :=
  rows.countP isPortGroup

theorem portRowsOfBuckets_cons (b : GroupBucket) (rest : List GroupBucket) :
    portRowsOfBuckets (b :: rest)
      = PortRow.Group b.name b.items.length
        :: (b.items.map PortRow.Item ++ portRowsOfBuckets rest) := by
  simp [portRowsOfBuckets]

theorem portItemIndices_rowsOfBuckets (bs : List GroupBucket) :
    portItemIndices (portRowsOfBuckets bs) = itemsJoin bs := by
  induction bs with
  | nil => simp [portItemIndices, portRowsOfBuckets, itemsJoin]
  | cons b rest ih =>
    rw [portRowsOfBuckets_cons]
    simp only [portItemIndices, List.filterMap_cons, List.filterMap_append,
      List.filterMap_map] at *
    rw [show itemsJoin (b :: rest) = b.items ++ itemsJoin rest from by simp [itemsJoin]]
    simp only [Function.comp_def]
    rw [ih]
    congr 1
    rw [show (fun i => some i) = (some : Nat → Option Nat) from rfl, List.filterMap_some]

theorem portGroupCount_rowsOfBuckets (bs : List GroupBucket) :
    portGroupCount (portRowsOfBuckets bs) = bs.length := by
  induction bs with
  | nil => simp [portGroupCount, portRowsOfBuckets]
  | cons b rest ih =>
    rw [portRowsOfBuckets_cons]
    simp only [portGroupCount, List.countP_cons, List.countP_append, List.countP_map] at *
    have hz : List.countP (fun x => isPortGroup (PortRow.Item x)) b.items = 0 := by
      apply List.countP_eq_zero.mpr
      intro x _
      simp [isPortGroup]
    simp only [Function.comp_def]
    simp [isPortGroup, ih, hz, Nat.add_comm]

/-- `takeWhile` walks through a block that satisfies the predicate. -/
theorem takeWhile_append_all {α : Type} (p : α → Bool) :
    ∀ (l1 l2 : List α), (∀ x ∈ l1, p x = true) →
      (l1 ++ l2).takeWhile p = l1 ++ l2.takeWhile p := by
  intro l1
  induction l1 with
  | nil => intro l2 _; simp
  | cons a t ih =>
    intro l2 h
    have ha : p a = true := h a (List.mem_cons_self a t)
    simp only [List.cons_append, List.takeWhile_cons, ha, if_pos]
    rw [ih l2 (fun x hx => h x (List.mem_cons_of_mem a hx))]

/-- `dropWhile` skips a block that satisfies the predicate. -/
theorem dropWhile_append_all {α : Type} (p : α → Bool) :
    ∀ (l1 l2 : List α), (∀ x ∈ l1, p x = true) →
      (l1 ++ l2).dropWhile p = l2.dropWhile p := by
  intro l1
  induction l1 with
  | nil => intro l2 _; simp
  | cons a t ih =>
    intro l2 h
    have ha : p a = true := h a (List.mem_cons_self a t)
    simp only [List.cons_append, List.dropWhile_cons, ha, if_pos]
    exact ih l2 (fun x hx => h x (List.mem_cons_of_mem a hx))

/-- Bucket output never starts with an `Item` row. -/
theorem portRowsOfBuckets_takeWhile (bs : List GroupBucket) :
    (portRowsOfBuckets bs).takeWhile isPortItem = []
    ∧ (portRowsOfBuckets bs).dropWhile isPortItem = portRowsOfBuckets bs := by
  cases bs with
  | nil => simp [portRowsOfBuckets]
  | cons b rest =>
    simp [portRowsOfBuckets, List.flatMap_cons, List.takeWhile_cons, List.dropWhile_cons,
      isPortItem]

/-- Checker: every `Group` row's count equals the number of `Item` rows
directly under it, and items only ever appear under a group row. -/
def portGroupsWellCounted : List PortRow → Bool
  | [] => true
  | .Item _ :: _ => false
  | .Group _ c :: rest =>
    (c == (rest.takeWhile isPortItem).length) && portGroupsWellCounted (rest.dropWhile isPortItem)
termination_by rows => rows.length
decreasing_by
  have hle := (List.dropWhile_sublist (p := isPortItem) (l := rest)).length_le
  simp only [List.length_cons]
  omega

theorem portGroupsWellCounted_rowsOfBuckets (bs : List GroupBucket) :
    portGroupsWellCounted (portRowsOfBuckets bs) = true := by
  induction bs with
  | nil => simp [portRowsOfBuckets, portGroupsWellCounted]
  | cons b rest ih =>
    have hall : ∀ x ∈ b.items.map PortRow.Item, isPortItem x = true := by
      intro x hx
      rcases List.mem_map.mp hx with ⟨i, _, rfl⟩
      rfl
    have htake := takeWhile_append_all isPortItem (b.items.map PortRow.Item)
      (portRowsOfBuckets rest) hall
    have hdrop := dropWhile_append_all isPortItem (b.items.map PortRow.Item)
      (portRowsOfBuckets rest) hall
    have hrest := portRowsOfBuckets_takeWhile rest
    have h1 : List.takeWhile isPortItem (b.items.map PortRow.Item ++ portRowsOfBuckets rest)
        = b.items.map PortRow.Item := by
      rw [htake, hrest.1, List.append_nil]
    have h2 : List.dropWhile isPortItem (b.items.map PortRow.Item ++ portRowsOfBuckets rest)
        = portRowsOfBuckets rest := by
      rw [hdrop, hrest.2]
    rw [portRowsOfBuckets_cons]
    simp only [portGroupsWellCounted]
    rw [h1, h2, ih]
    simp

/-- Predicate: a `NodeRow` is a `Group` row. -/
def isNodeGroup : NodeRow → Bool
  | .Group _ _ => true
  | _ => false

/-- Predicate: a `NodeRow` is an `Item` row. -/
def isNodeItem : NodeRow → Bool
  | .Item _ => true
  | _ => false

/-- The indices carried by the node `Item` rows, in emission order. -/
def nodeItemIndices (rows : List NodeRow) : List Nat :=
  rows.filterMap (fun r => match r with | .Item i => some i | _ => none)

/-- The number of node `Group` rows. -/
def nodeGroupCount (rows : List NodeRow) : Nat :=
  rows.countP isNodeGroup

theorem nodeRowsOfBuckets_cons (b : GroupBucket) (rest : List GroupBucket) :
    nodeRowsOfBuckets (b :: rest)
      = NodeRow.Group b.name b.items.length
        :: (b.items.map NodeRow.Item ++ nodeRowsOfBuckets rest) := by
  simp [nodeRowsOfBuckets]

theorem nodeItemIndices_rowsOfBuckets (bs : List GroupBucket) :
    nodeItemIndices (nodeRowsOfBuckets bs) = itemsJoin bs := by
  induction bs with
  | nil => simp [nodeItemIndices, nodeRowsOfBuckets, itemsJoin]
  | cons b rest ih =>
    rw [nodeRowsOfBuckets_cons]
    simp only [nodeItemIndices, List.filterMap_cons, List.filterMap_append,
      List.filterMap_map] at *
    rw [show itemsJoin (b :: rest) = b.items ++ itemsJoin rest from by simp [itemsJoin]]
    simp only [Function.comp_def]
    rw [ih]
    congr 1
    rw [show (fun i => some i) = (some : Nat → Option Nat) from rfl, List.filterMap_some]

theorem nodeGroupCount_rowsOfBuckets (bs : List GroupBucket) :
    nodeGroupCount (nodeRowsOfBuckets bs) = bs.length := by
  induction bs with
  | nil => simp [nodeGroupCount, nodeRowsOfBuckets]
  | cons b rest ih =>
    rw [nodeRowsOfBuckets_cons]
    simp only [nodeGroupCount, List.countP_cons, List.countP_append, List.countP_map] at *
    have hz : List.countP (fun x => isNodeGroup (NodeRow.Item x)) b.items = 0 := by
      apply List.countP_eq_zero.mpr
      intro x _
      simp [isNodeGroup]
    simp only [Function.comp_def]
    simp [isNodeGroup, ih, hz, Nat.add_comm]

theorem nodeRowsOfBuckets_takeWhile (bs : List GroupBucket) :
    (nodeRowsOfBuckets bs).takeWhile isNodeItem = []
    ∧ (nodeRowsOfBuckets bs).dropWhile isNodeItem = nodeRowsOfBuckets bs := by
  cases bs with
  | nil => simp [nodeRowsOfBuckets]
  | cons b rest =>
    simp [nodeRowsOfBuckets, List.flatMap_cons, List.takeWhile_cons, List.dropWhile_cons,
      isNodeItem]

/-- Checker for node rows, as for port rows. -/
def nodeGroupsWellCounted : List NodeRow → Bool
  | [] => true
  | .Group _ c :: rest =>
    (c == (rest.takeWhile isNodeItem).length) && nodeGroupsWellCounted (rest.dropWhile isNodeItem)
  | _ :: _ => false
termination_by rows => rows.length
decreasing_by
  have hle := (List.dropWhile_sublist (p := isNodeItem) (l := rest)).length_le
  simp only [List.length_cons]
  omega

theorem nodeGroupsWellCounted_rowsOfBuckets (bs : List GroupBucket) :
    nodeGroupsWellCounted (nodeRowsOfBuckets bs) = true := by
  induction bs with
  | nil => simp [nodeRowsOfBuckets, nodeGroupsWellCounted]
  | cons b rest ih =>
    have hall : ∀ x ∈ b.items.map NodeRow.Item, isNodeItem x = true := by
      intro x hx
      rcases List.mem_map.mp hx with ⟨i, _, rfl⟩
      rfl
    have htake := takeWhile_append_all isNodeItem (b.items.map NodeRow.Item)
      (nodeRowsOfBuckets rest) hall
    have hdrop := dropWhile_append_all isNodeItem (b.items.map NodeRow.Item)
      (nodeRowsOfBuckets rest) hall
    have hrest := nodeRowsOfBuckets_takeWhile rest
    have h1 : List.takeWhile isNodeItem (b.items.map NodeRow.Item ++ nodeRowsOfBuckets rest)
        = b.items.map NodeRow.Item := by
      rw [htake, hrest.1, List.append_nil]
    have h2 : List.dropWhile isNodeItem (b.items.map NodeRow.Item ++ nodeRowsOfBuckets rest)
        = nodeRowsOfBuckets rest := by
      rw [hdrop, hrest.2]
    rw [nodeRowsOfBuckets_cons]
    simp only [nodeGroupsWellCounted]
    rw [h1, h2, ih]
    simp

/-- Indexing `(List.range l.length)` through `getD` is just mapping. -/
theorem rangeMapGetD {α β : Type} (f : α → β) (d : α) :
    ∀ (l : List α), (List.range l.length).map (fun i => f (l.getD i d)) = l.map f := by
  intro l
  induction l with
  | nil => simp
  | cons a t ih =>
    rw [List.length_cons, List.range_succ_eq_map]
    simp only [List.map_cons, List.map_map, Function.comp_def, List.getD_cons_zero,
      List.getD_cons_succ]
    rw [ih]

/-- The group key assigned to each label of a list, in item order. -/
def assignedKeys (labels : List String) : List String :=
  labels.map (fun l => (groupChoiceFor labels l).1)

theorem enumMapChoice (L : List String) :
    L.enum.map (fun p => (groupChoiceFor L p.2).1) = assignedKeys L := by
  rw [assignedKeys,
    show (fun (p : Nat × String) => (groupChoiceFor L p.2).1)
      = ((fun l => (groupChoiceFor L l).1) ∘ Prod.snd) from rfl,
    ← List.map_map, List.enum_map_snd]

/-- C1: for every input list of port records or node-process records, the
label grouping engine emits a partition — the multiset of emitted `Item`
indices is exactly the input index set (no duplicates, no omissions, hence
as many `Item` rows as inputs), the number of `Group` rows equals the number
of distinct assigned group keys, and each `Group` row's count equals the
number of `Item` rows under it. -/
theorem c1_grouping_is_partition :
    (∀ ports : List PortInfo,
        List.Perm (portItemIndices (group_ports ports)) (List.range ports.length)
      ∧ portGroupCount (group_ports ports)
          = (assignedKeys (ports.map groupLabelForPort)).dedup.length
      ∧ portGroupsWellCounted (group_ports ports) = true)
  ∧ (∀ (procs : List NodeProcessInfo) (offset : Nat),
        List.Perm (nodeItemIndices (group_node_processes procs offset))
          ((List.range procs.length).map (fun i => i + offset))
      ∧ nodeGroupCount (group_node_processes procs offset)
          = (assignedKeys (procs.map groupLabelForNode)).dedup.length
      ∧ nodeGroupsWellCounted (group_node_processes procs offset) = true) := by
  constructor
  · intro ports
    cases ports with
    | nil =>
      refine ⟨?_, ?_, ?_⟩
      · simpa [group_ports, portItemIndices] using List.Perm.refl ([] : List Nat)
      · simp [group_ports, portGroupCount, assignedKeys]
      · simp [group_ports, portGroupsWellCounted]
    | cons p ps =>
      have hgp : group_ports (p :: ps)
          = portRowsOfBuckets (engineBuckets ((p :: ps).map groupLabelForPort).enum) := by
        simp [group_ports]
      have hbk : engineBuckets ((p :: ps).map groupLabelForPort).enum
          = engineBucketsAux ((p :: ps).map groupLabelForPort)
              ((p :: ps).map groupLabelForPort).enum [] := by
        rw [engineBuckets, List.enum_map_snd]
      refine ⟨?_, ?_, ?_⟩
      · rw [hgp, portItemIndices_rowsOfBuckets]
        refine (itemsJoin_engineBuckets _).trans ?_
        rw [List.enum_map_fst, List.length_map]
      · rw [hgp, portGroupCount_rowsOfBuckets, hbk,
          show (engineBucketsAux ((p :: ps).map groupLabelForPort)
              ((p :: ps).map groupLabelForPort).enum []).length
            = (keysOf (engineBucketsAux ((p :: ps).map groupLabelForPort)
              ((p :: ps).map groupLabelForPort).enum [])).length from (List.length_map _ _).symm,
          keysOf_engineBucketsAux, enumMapChoice]
        simpa [keysOf] using pushNewFold_length (assignedKeys ((p :: ps).map groupLabelForPort))
      · rw [hgp]
        exact portGroupsWellCounted_rowsOfBuckets _
  · intro procs offset
    cases procs with
    | nil =>
      refine ⟨?_, ?_, ?_⟩
      · simpa [group_node_processes, nodeItemIndices] using List.Perm.refl ([] : List Nat)
      · simp [group_node_processes, nodeGroupCount, assignedKeys]
      · simp [group_node_processes, nodeGroupsWellCounted]
    | cons p ps =>
      have hpairs :
          ((List.range (p :: ps).length).map (fun idx =>
              (idx + offset, groupLabelForNode ((p :: ps).getD idx nodeDefault)))).map Prod.snd
            = (p :: ps).map groupLabelForNode := by
        rw [List.map_map]
        exact rangeMapGetD groupLabelForNode nodeDefault (p :: ps)
      have hgn : group_node_processes (p :: ps) offset
          = nodeRowsOfBuckets (engineBuckets ((List.range (p :: ps).length).map (fun idx =>
              (idx + offset, groupLabelForNode ((p :: ps).getD idx nodeDefault))))) := by
        simp [group_node_processes, build_grouped_rows]
      have hbk : engineBuckets ((List.range (p :: ps).length).map (fun idx =>
              (idx + offset, groupLabelForNode ((p :: ps).getD idx nodeDefault))))
          = engineBucketsAux ((p :: ps).map groupLabelForNode)
              ((List.range (p :: ps).length).map (fun idx =>
                (idx + offset, groupLabelForNode ((p :: ps).getD idx nodeDefault)))) [] := by
        rw [engineBuckets, hpairs]
      refine ⟨?_, ?_, ?_⟩
      · rw [hgn, nodeItemIndices_rowsOfBuckets]
        refine (itemsJoin_engineBuckets _).trans ?_
        rw [List.map_map]
        exact List.Perm.refl _
      · rw [hgn, nodeGroupCount_rowsOfBuckets, hbk,
          show (engineBucketsAux ((p :: ps).map groupLabelForNode)
              ((List.range (p :: ps).length).map (fun idx =>
                (idx + offset, groupLabelForNode ((p :: ps).getD idx nodeDefault)))) []).length
            = (keysOf (engineBucketsAux ((p :: ps).map groupLabelForNode)
              ((List.range (p :: ps).length).map (fun idx =>
                (idx + offset, groupLabelForNode ((p :: ps).getD idx nodeDefault)))) [])).length
            from (List.length_map _ _).symm,
          keysOf_engineBucketsAux]
        rw [show ((List.range (p :: ps).length).map (fun idx =>
              (idx + offset, groupLabelForNode ((p :: ps).getD idx nodeDefault)))).map
                (fun q => (groupChoiceFor ((p :: ps).map groupLabelForNode) q.2).1)
            = assignedKeys ((p :: ps).map groupLabelForNode) from by
          rw [assignedKeys, List.map_map]
          rw [show ((fun q => (groupChoiceFor ((p :: ps).map groupLabelForNode)
                (Prod.snd q)).1) ∘ (fun idx =>
                  (idx + offset, groupLabelForNode ((p :: ps).getD idx nodeDefault))))
              = (fun idx => (groupChoiceFor ((p :: ps).map groupLabelForNode)
                (groupLabelForNode ((p :: ps).getD idx nodeDefault))).1) from rfl]
          rw [show (fun idx => (groupChoiceFor ((p :: ps).map groupLabelForNode)
                (groupLabelForNode ((p :: ps).getD idx nodeDefault))).1)
              = (fun idx => ((fun l => (groupChoiceFor ((p :: ps).map groupLabelForNode) l).1)
                ((fun q => groupLabelForNode q) ((p :: ps).getD idx nodeDefault)))) from rfl]
          rw [rangeMapGetD (fun q => (groupChoiceFor ((p :: ps).map groupLabelForNode)
            (groupLabelForNode q)).1) nodeDefault (p :: ps), List.map_map]
          rfl]
        simpa [keysOf] using pushNewFold_length (assignedKeys ((p :: ps).map groupLabelForNode))
      · rw [hgn]
        exact nodeGroupsWellCounted_rowsOfBuckets _

/-- Lookup of the item list recorded for a given group key. -/
def bucketItems (bs : List GroupBucket) (k : String) : List Nat :=
  match bs.find? (fun b => b.key == k) with
  | some b => b.items
  | none => []

theorem bucketItems_insertBucket (bs : List GroupBucket) (k n : String) (i : Nat) (k2 : String) :
    bucketItems (insertBucket bs k n i) k2
      = if k2 = k then bucketItems bs k2 ++ [i] else bucketItems bs k2 := by
  induction bs with
  | nil =>
    by_cases h : k2 = k
    · subst h
      simp [bucketItems, insertBucket, List.find?]
    · have hbe : (k == k2) = false := by
        simp only [beq_eq_false_iff_ne]
        exact fun hh => h hh.symm
      simp [bucketItems, insertBucket, List.find?, hbe, h]
  | cons b rest ih =>
    by_cases hbk : b.key = k
    · rw [show insertBucket (b :: rest) k n i = { b with items := b.items ++ [i] } :: rest from
        by simp [insertBucket, hbk]]
      by_cases h2 : k2 = k
      · subst h2
        simp [bucketItems, List.find?, hbk]
      · have hb2 : (b.key == k2) = false := by
          rw [hbk]
          simp only [beq_eq_false_iff_ne]
          exact fun hh => h2 hh.symm
        simp only [bucketItems, List.find?_cons, hb2]
        simp [h2]
    · rw [show insertBucket (b :: rest) k n i = b :: insertBucket rest k n i from
        by simp [insertBucket, hbk]]
      by_cases hb2 : b.key = k2
      · simp [bucketItems, List.find?_cons, hb2, if_neg (show ¬ k2 = k from fun hh =>
          hbk (hb2.trans hh))]
      · have hb2b : (b.key == k2) = false := by simp [hb2]
        simp only [bucketItems, List.find?_cons, hb2b]
        simpa [bucketItems] using ih

theorem bucketItems_engineBucketsAux (L : List String) :
    ∀ (pairs : List (Nat × String)) (acc : List GroupBucket) (k : String),
      bucketItems (engineBucketsAux L pairs acc) k
        = bucketItems acc k
          ++ (pairs.filter (fun p => (groupChoiceFor L p.2).1 == k)).map Prod.fst := by
  intro pairs
  induction pairs with
  | nil => intro acc k; simp [engineBucketsAux]
  | cons p rest ih =>
    intro acc k
    have hstep : engineBucketsAux L (p :: rest) acc
        = engineBucketsAux L rest
            (insertBucket acc (groupChoiceFor L p.2).1 (groupChoiceFor L p.2).2 p.1) := by
      simp [engineBucketsAux]
    rw [hstep, ih, bucketItems_insertBucket]
    by_cases hk : k = (groupChoiceFor L p.2).1
    · rw [if_pos hk, List.filter_cons, if_pos (by simp [hk.symm]), List.map_cons]
      simp
    · rw [if_neg hk, List.filter_cons,
        if_neg (show ¬ ((groupChoiceFor L p.2).1 == k) = true from by
          simp only [beq_iff_eq]
          exact fun hh => hk hh.symm)]

/-- The display labels of a port list, feeding the grouping engine. -/
def portLabels (ports : List PortInfo) : List String :=
  ports.map groupLabelForPort

/-- C5: an item whose token (the label's leading word up to the first
whitespace or one of `| : - _`, compared case-insensitively) occurs more
than once across the list gets group key `token::<token>` with the token as
group display name, and its index is bucketed under that key; an item whose
token occurs exactly once gets the full label (case-insensitive key)
instead. -/
theorem c5_token_majority_rule (ports : List PortInfo) (i : Nat)
    (h : i < (portLabels ports).length) :
    (tokenCountsOf (portLabels ports) (tokenKeyOf ((portLabels ports).get ⟨i, h⟩)) > 1 →
        groupChoiceFor (portLabels ports) ((portLabels ports).get ⟨i, h⟩)
            = ("token::" ++ tokenKeyOf ((portLabels ports).get ⟨i, h⟩),
               groupTokenFromLabel ((portLabels ports).get ⟨i, h⟩))
          ∧ i ∈ bucketItems (engineBuckets (portLabels ports).enum)
              ("token::" ++ tokenKeyOf ((portLabels ports).get ⟨i, h⟩)))
    ∧ (tokenCountsOf (portLabels ports) (tokenKeyOf ((portLabels ports).get ⟨i, h⟩)) = 1 →
        groupChoiceFor (portLabels ports) ((portLabels ports).get ⟨i, h⟩)
            = ("label::" ++ asciiLower ((portLabels ports).get ⟨i, h⟩),
               (portLabels ports).get ⟨i, h⟩)
          ∧ i ∈ bucketItems (engineBuckets (portLabels ports).enum)
              ("label::" ++ asciiLower ((portLabels ports).get ⟨i, h⟩))) := by
  have hmem : (i, (portLabels ports).get ⟨i, h⟩) ∈ (portLabels ports).enum :=
    List.mem_enum_iff_get?.mpr (List.get?_eq_get h)
  have hmm : ∀ key, (groupChoiceFor (portLabels ports) ((portLabels ports).get ⟨i, h⟩)).1 = key →
      i ∈ bucketItems (engineBuckets (portLabels ports).enum) key := by
    intro key hkey
    rw [engineBuckets, List.enum_map_snd, bucketItems_engineBucketsAux]
    rw [show bucketItems [] key = [] from rfl, List.nil_append]
    refine List.mem_map.mpr ⟨(i, (portLabels ports).get ⟨i, h⟩), ?_, rfl⟩
    refine List.mem_filter.mpr ⟨hmem, ?_⟩
    simp only [beq_iff_eq]
    exact hkey
  have hunfold : groupChoiceFor (portLabels ports) ((portLabels ports).get ⟨i, h⟩)
      = (if tokenCountsOf (portLabels ports)
              (tokenKeyOf ((portLabels ports).get ⟨i, h⟩)) > 1
            ∧ tokenKeyOf ((portLabels ports).get ⟨i, h⟩) ≠ "" then
          ("token::" ++ tokenKeyOf ((portLabels ports).get ⟨i, h⟩),
           groupTokenFromLabel ((portLabels ports).get ⟨i, h⟩))
        else
          ("label::" ++ asciiLower ((portLabels ports).get ⟨i, h⟩),
           (portLabels ports).get ⟨i, h⟩)) := rfl
  constructor
  · intro hgt
    have htk : tokenKeyOf ((portLabels ports).get ⟨i, h⟩) ≠ "" := by
      intro hz
      rw [hz] at hgt
      simp [tokenCountsOf] at hgt
    have hch := hunfold.trans (if_pos ⟨hgt, htk⟩)
    exact ⟨hch, hmm _ (by rw [hch])⟩
  · intro hone
    have hch := hunfold.trans (if_neg (fun hc => by
      have h1 := hc.1
      omega))
    exact ⟨hch, hmm _ (by rw [hch])⟩

/-- A concrete port list: two items share the leading token `web`, one item
has a unique token. -/
def demoPortsC5 : List PortInfo :=
  [⟨"tcp", 3000, 10, "node", "/usr/bin/node", none, none, some "web one"⟩,
   ⟨"tcp", 3001, 11, "node", "/usr/bin/node", none, none, some "web two"⟩,
   ⟨"udp", 5000, 12, "dnsmasq", "/usr/sbin/dnsmasq", none, none, some "solo app"⟩]

theorem c5_token_majority_rule_witness :
    (tokenCountsOf (portLabels demoPortsC5) "web" > 1
      ∧ groupChoiceFor (portLabels demoPortsC5) "web one" = ("token::web", "web")
      ∧ 0 ∈ bucketItems (engineBuckets (portLabels demoPortsC5).enum) "token::web")
  ∧ (tokenCountsOf (portLabels demoPortsC5) "solo" = 1
      ∧ groupChoiceFor (portLabels demoPortsC5) "solo app" = ("label::solo app", "solo app")
      ∧ 2 ∈ bucketItems (engineBuckets (portLabels demoPortsC5).enum) "label::solo app") := by
  have h0 := (c5_token_majority_rule demoPortsC5 0 (by decide)).1 (by decide)
  have h2 := (c5_token_majority_rule demoPortsC5 2 (by decide)).2 (by decide)
  exact ⟨⟨by decide, h0.1, h0.2⟩, ⟨by decide, h2.1, h2.2⟩⟩

/-! ## Ports collector: `collect_ports` (ports/mod.rs lines 42–74) -/

/-- Stable insertion sort (the behaviour of Rust's stable `sort_by`) keyed
by a "less or equal" test. -/
def insertLe {α : Type} (le : α → α → Bool) (a : α) : List α → List α
  | [] => [a]
  | b :: t => if le a b then a :: b :: t else b :: insertLe le a t

/-- Stable sort: insert elements from the right, keeping earlier elements
in front on ties. -/
def sortLe {α : Type} (le : α → α → Bool) (l : List α) : List α :=
  l.foldr (insertLe le) []

/-- The `collect_ports` comparator: port, then protocol, then pid. -/
def portCmp (a b : PortInfo) : Ordering :=
  (compare a.port b.port).then ((compare a.proto b.proto).then (compare a.pid b.pid))

/-- `sort_by` uses the comparator's "not greater" as its order. -/
def portLe (a b : PortInfo) : Bool :=
  (portCmp a b).isLE

/-- `collect_ports`, as a function of the rows produced by the proc scan and
the container-engine port bindings (both read from the environment):
dedupe proc rows on (proto, port, pid), drop engine rows whose (proto, port)
is already taken by a proc row, and sort. -/
def collect_ports (procRows dockerRows : List PortInfo) : List PortInfo :=
  let deduped := (procRows.foldl
    (fun (acc : List PortInfo × List (String × Nat × Nat)) row =>
      if acc.2.contains (row.proto, row.port, row.pid) then acc
      else (acc.1 ++ [row], acc.2 ++ [(row.proto, row.port, row.pid)]))
    ([], [])).1
  let seen := deduped.map (fun r => (r.proto, r.port))
  let merged := deduped ++ dockerRows.filter (fun r => !(seen.contains (r.proto, r.port)))
  sortLe portLe merged

/-- The proc-scan row of the C6 scenario: `{tcp, 8080, pid=100}`. -/
def demoProcPort : PortInfo :=
  ⟨"tcp", 8080, 100, "node", "/usr/bin/node", none, none, none⟩

/-- The engine-binding row of the C6 scenario:
`{tcp, 8080, container="abc123"}` with no host process. -/
def demoDockerPort : PortInfo :=
  ⟨"tcp", 8080, 0, "docker-proxy", "-", some "abc123", some "myproj", none⟩

/-- C6: when a proc-scan entry and a container-engine binding share the same
protocol and port, the proc-scan entry is kept and the engine entry dropped. -/
theorem c6_proc_scan_wins :
    collect_ports [demoProcPort] [demoDockerPort] = [demoProcPort] := by decide

/-! ## Docker status-string recency parsing (docker/stats.rs lines 456–523) -/

/-- `parse_duration_string`: duration strings such as `2 hours`, `about an
hour`, `3 days`, `45 seconds` to seconds. -/
def parse_duration_string (input : String) : Nat :=
  let l1 := (trimChars input.data).map charLower
  let l2 := trimChars (stripStartMatches "about".data l1)
  if isPrefixB "a ".data l2 || isPrefixB "an ".data l2 then
    let unit := trimChars (stripStartMatches "an ".data (stripStartMatches "a ".data l2))
    if isPrefixB "second".data unit then 1
    else if isPrefixB "minute".data unit then 60
    else if isPrefixB "hour".data unit then 3600
    else if isPrefixB "day".data unit then 86400
    else if isPrefixB "week".data unit then 604800
    else if isPrefixB "month".data unit then 2592000
    else if isPrefixB "year".data unit then 31536000
    else u64MAX / 2
  else
    let parts := splitWsAux l2 []
    let number := match parts with
      | [] => 1
      | w :: _ => (parseU64 w).getD 1
    let unit := match parts with
      | [] => ([] : List Char)
      | [_] => ([] : List Char)
      | _ :: u :: _ => u
    let mult :=
      if isPrefixB "second".data unit then 1
      else if isPrefixB "minute".data unit then 60
      else if isPrefixB "hour".data unit then 3600
      else if isPrefixB "day".data unit then 86400
      else if isPrefixB "week".data unit then 604800
      else if isPrefixB "month".data unit then 2592000
      else if isPrefixB "year".data unit then 31536000
      else 1
    satMul number mult

/-- `parse_activity_time`: seconds since last activity from a status string
(lower = more recent); `Created` maps to the `u64::MAX / 2` sentinel. -/
def parse_activity_time (status : String) : Nat :=
  let status_lower := asciiLower status
  if startsWithB status_lower "created" then u64MAX / 2
  else
    let time_str :=
      if startsWithB status_lower "up" then
        trimChars (stripStartMatches "up".data status_lower.data)
      else
        match findSubFrom [')'] status_lower.data 0 with
        | some pos =>
          trimChars (stripEndMatches "ago".data (trimChars (status_lower.data.drop (pos + 1))))
        | none => status_lower.data
    parse_duration_string ⟨time_str⟩

/-- C7: `"Exited (0) 3 days ago"` parses to 3 × 86400 = 259200 seconds and
`"Created"` parses to the maximum (least-recent) sentinel `u64::MAX / 2`. -/
theorem c7_activity_time_scenarios :
    parse_activity_time "Exited (0) 3 days ago" = 259200
  ∧ parse_activity_time "Created" = u64MAX / 2 := by decide

/-! ## Docker collector grouping (src/system/docker/stats.rs) -/

/-- `SortBy` (src/app/state.rs). -/
inductive SortBy where
  | Cpu
  | Memory
  | Name
deriving Repr, DecidableEq

/-- `SortOrder` (src/app/state.rs). -/
inductive SortOrder where
  | Asc
  | Desc
deriving Repr, DecidableEq

/-- `ContainerInfo` as used by docker/stats.rs (`cpu : f32` embedded as `ℚ`,
`Cow` strings as plain strings). -/
structure ContainerInfo where
  id : String
  name : String
  image : String
  port_public : String
  port_internal : String
  status : String
  cpu : ℚ
  memory_bytes : Nat
  group_name : String
  group_path : Option String
  running : Bool
  activity_secs : Nat
deriving Repr, DecidableEq

/-- `DockerRow` (`prefix` field renamed `pfx`: `prefix` is reserved in Lean). -/
inductive DockerRow where
  | Group (name : String) (path : Option String) (count : Nat) (running_count : Nat)
  | Item (index : Nat) (pfx : String)
  | Separator
deriving Repr, DecidableEq

/-- The `GroupBucket` accumulator of `group_containers`. -/
structure DockerGroupBucket where
  name : String
  path : Option String
  containers : List ContainerInfo
  min_activity : Nat
deriving Repr, DecidableEq

/-- One `grouped.entry(key)` step of `group_containers` on the key-ordered
map (Rust `BTreeMap`): find or create the bucket, track the most recent
activity, push the container. -/
def btreeInsert (m : List (String × DockerGroupBucket)) (k : String) (c : ContainerInfo) :
    List (String × DockerGroupBucket) :=
  match m with
  | [] => [(k, ⟨c.group_name, c.group_path, [c], min u64MAX c.activity_secs⟩)]
  | (k2, b) :: rest =>
    if k = k2 then
      (k2, { b with
        containers := b.containers ++ [c],
        min_activity := min b.min_activity c.activity_secs }) :: rest
    else if compare k k2 = Ordering.lt then
      (k, ⟨c.group_name, c.group_path, [c], min u64MAX c.activity_secs⟩) :: (k2, b) :: rest
    else
      (k2, b) :: btreeInsert rest k c

/-- `grouped.remove("Other")`: the removed bucket (if any) and the rest. -/
def btreeRemove (m : List (String × DockerGroupBucket)) (k : String) :
    Option DockerGroupBucket × List (String × DockerGroupBucket) :=
  match m with
  | [] => (none, [])
  | (k2, b) :: rest =>
    if k = k2 then (some b, rest)
    else
      let r := btreeRemove rest k
      (r.1, (k2, b) :: r.2)

/-- Emit one group: sort its containers by activity (most recent first),
count running members, then the `Group` row followed by one `Item` row per
container with the tree-continuation glyph (closing glyph on the last). -/
def emitDockerBucket (flatLen : Nat) (b : DockerGroupBucket) :
    List ContainerInfo × List DockerRow :=
  let sorted := sortLe (fun x y => decide (x.activity_secs ≤ y.activity_secs)) b.containers
  let running_count := sorted.countP (fun c => c.running)
  (sorted,
   DockerRow.Group b.name b.path sorted.length running_count ::
     sorted.enum.map (fun p =>
       DockerRow.Item (flatLen + p.1)
         (if p.1 + 1 = sorted.length then "  └─ " else "  ├─ ")))

/-- `group_containers` (docker/stats.rs lines 169–265).  The `_sort_by` /
`_sort_order` parameters are accepted and ignored, exactly as in the source. -/
def group_containers (containers : List ContainerInfo)
    (_sort_by : SortBy) (_sort_order : SortOrder) :
    List ContainerInfo × List DockerRow :=
  let grouped := containers.foldl
    (fun m c => btreeInsert m (c.group_path.getD c.group_name) c) []
  let removed := btreeRemove grouped "Other"
  let buckets := sortLe (fun a b => decide (a.min_activity ≤ b.min_activity))
    (removed.2.map Prod.snd)
  let main := buckets.foldl
    (fun (acc : List ContainerInfo × List DockerRow × Bool) b =>
      let e := emitDockerBucket acc.1.length b
      (acc.1 ++ e.1,
       acc.2.1 ++ (if acc.2.2 then [] else [DockerRow.Separator]) ++ e.2,
       false))
    ([], [], true)
  match removed.1 with
  | none => (main.1, main.2.1)
  | some b =>
    let sep : List DockerRow := if main.2.1 = [] then [] else [DockerRow.Separator]
    let e := emitDockerBucket main.1.length b
    (main.1 ++ e.1, main.2.1 ++ sep ++ e.2)

/-- C4 scenario, group A: compose path `/home/user/projA`, last activity one
hour ago, running. -/
def demoContainerA : ContainerInfo :=
  ⟨"aaa111", "web-a", "nginx", "80", "-", "Up About an hour", 0, 0,
   "projA", some "/home/user/projA", true, 3600⟩

/-- C4 scenario, group B: compose path `/home/user/projB`, last activity two
days ago, stopped. -/
def demoContainerB : ContainerInfo :=
  ⟨"bbb222", "db-b", "postgres", "-", "5432", "Exited (0) 2 days ago", 0, 0,
   "projB", some "/home/user/projB", false, 172800⟩

/-- C4 scenario: a container with no compose labels (sentinel group `Other`). -/
def demoContainerO : ContainerInfo :=
  ⟨"ccc333", "adhoc", "alpine", "-", "-", "Up 5 minutes", 0, 0,
   "Other", none, true, 300⟩

/-- C4: with groups A (1 hour ago) and B (2 days ago) plus one unlabeled
container, the rows are Group(A), its items, Separator, Group(B), its items,
Separator, Group("Other"), its items — more recent group first, `Other`
always last, separators only between groups. -/
theorem c4_compose_grouping_order :
    group_containers [demoContainerA, demoContainerB, demoContainerO]
        SortBy.Cpu SortOrder.Asc
      = ([demoContainerA, demoContainerB, demoContainerO],
         [DockerRow.Group "projA" (some "/home/user/projA") 1 1,
          DockerRow.Item 0 "  └─ ",
          DockerRow.Separator,
          DockerRow.Group "projB" (some "/home/user/projB") 1 0,
          DockerRow.Item 1 "  └─ ",
          DockerRow.Separator,
          DockerRow.Group "Other" none 1 1,
          DockerRow.Item 2 "  └─ "]) := by decide

/-- C10: the grouped output of `group_containers` — both the flat container
list and the row sequence — is completely independent of the `sortBy` and
`sortOrder` arguments that its public interface accepts. -/
theorem c10_group_containers_ignores_sort (c : List ContainerInfo)
    (s1 s2 : SortBy) (o1 o2 : SortOrder) :
    group_containers c s1 o1 = group_containers c s2 o2 := rfl

/-! ## PM2 JSON parsing (src/system/node/pm2.rs) -/

/-- `Pm2Process` (`cpu : Option f32` embedded as `Option ℚ`). -/
structure Pm2Process where
  pm_id : Nat
  name : String
  mode : String
  status : String
  pid : Option Nat
  cpu : Option ℚ
  memory_bytes : Option Nat
  restarts : Nat
  uptime_ms : Option Nat
  script : Option String
deriving Repr, DecidableEq

/-- `Pm2Error`. -/
inductive Pm2Error where
  | NotInstalled
  | DaemonNotRunning
  | CommandFailed (msg : String)
  | ParseError (msg : String)
deriving Repr, DecidableEq

/-- The state machine of `split_json_objects`: split at top-level commas,
counting brace depth outside of quoted strings and honouring escapes. -/
def splitJsonAux : List Char → List Char → Int → Bool → Bool → List (List Char)
  | [], cur, _, _, _ =>
    if trimChars cur.reverse = [] then [] else [trimChars cur.reverse]
  | ch :: t, cur, depth, inStr, esc =>
    if esc then splitJsonAux t (ch :: cur) depth inStr false
    else if ch == '\\' && inStr then splitJsonAux t (ch :: cur) depth inStr true
    else
      let inStr2 := if ch == '"' then !inStr else inStr
      if inStr2 then splitJsonAux t (ch :: cur) depth inStr2 false
      else if ch == '{' then splitJsonAux t (ch :: cur) (depth + 1) inStr2 false
      else if ch == '}' then splitJsonAux t (ch :: cur) (depth - 1) inStr2 false
      else if ch == ',' && depth == 0 then
        (if trimChars cur.reverse = [] then splitJsonAux t [] depth inStr2 false
         else trimChars cur.reverse :: splitJsonAux t [] depth inStr2 false)
      else splitJsonAux t (ch :: cur) depth inStr2 false

/-- `split_json_objects`. -/
def split_json_objects (json : String) : List String :=
  (splitJsonAux json.data [] 0 false false).map (fun l => ⟨l⟩)

/-- The closing-quote scan of `extract_string`: index of the first unescaped
`"` (0 when none is found, as in the source's `let mut end = 0`). -/
def scanCloseQuote : List Char → Nat → Bool → Nat
  | [], _, _ => 0
  | c :: t, i, esc =>
    if esc then scanCloseQuote t (i + 1) false
    else if c == '\\' then scanCloseQuote t (i + 1) true
    else if c == '"' then i
    else scanCloseQuote t (i + 1) false

/-- `extract_string`: value of `"key":"…"` by literal pattern search. -/
def extract_string (json key : String) : Option String :=
  let pattern := "\"" ++ key ++ "\":\""
  match findSubFrom pattern.data json.data 0 with
  | none => none
  | some idx =>
    let rest := json.data.drop (idx + pattern.data.length)
    some ⟨rest.take (scanCloseQuote rest 0 false)⟩

/-- `extract_u32`: digits after `"key":` (whitespace skipped), `u32`-bounded. -/
def extract_u32 (json key : String) : Option Nat :=
  let pattern := "\"" ++ key ++ "\":"
  match findSubFrom pattern.data json.data 0 with
  | none => none
  | some idx =>
    let rest := (json.data.drop (idx + pattern.data.length)).dropWhile isWs
    let digits := rest.takeWhile Char.isDigit
    if digits = [] then none
    else match parseNatDigits digits with
      | some n => if n < 2 ^ 32 then some n else none
      | none => none

/-- `extract_u64`: digits after `"key":`, `u64`-bounded. -/
def extract_u64 (json key : String) : Option Nat :=
  let pattern := "\"" ++ key ++ "\":"
  match findSubFrom pattern.data json.data 0 with
  | none => none
  | some idx =>
    let rest := (json.data.drop (idx + pattern.data.length)).dropWhile isWs
    let digits := rest.takeWhile Char.isDigit
    if digits = [] then none
    else match parseNatDigits digits with
      | some n => if n < 2 ^ 64 then some n else none
      | none => none

/-- Exact rational value of the decimal strings accepted by Rust's `f32`
parse as they arise from `extract_f32`'s character filter (optional sign,
digits, optional fraction).  The scenario values used here are exactly
representable in `f32`, so the exact rational is faithful. -/
def parseDecQ (l : List Char) : Option ℚ :=
  let negAndBody : Bool × List Char :=
    match l with
    | '-' :: rest => (true, rest)
    | other => (false, other)
  let neg := negAndBody.1
  let body := negAndBody.2
  if body.any (fun c => c == '-') then none
  else
    let ip := body.takeWhile Char.isDigit
    let rest := body.drop ip.length
    match rest with
    | [] =>
      if ip = [] then none
      else (parseNatDigits ip).map (fun n =>
        mkRat (if neg then -(n : Int) else (n : Int)) 1)
    | '.' :: frac =>
      if frac.any (fun c => !c.isDigit) then none
      else if ip = [] ∧ frac = [] then none
      else
        let ipv := (parseNatDigits ip).getD 0
        let fv := (parseNatDigits frac).getD 0
        let num : Int := (ipv : Int) * (10 : Int) ^ frac.length + (fv : Int)
        some (mkRat (if neg then -num else num) (10 ^ frac.length))
    | _ => none

/-- `extract_f32`: the maximal run of digits, `.` and `-` after `"key":`. -/
def extract_f32 (json key : String) : Option ℚ :=
  let pattern := "\"" ++ key ++ "\":"
  match findSubFrom pattern.data json.data 0 with
  | none => none
  | some idx =>
    let rest := (json.data.drop (idx + pattern.data.length)).dropWhile isWs
    let numChars := rest.takeWhile (fun c => c.isDigit || c == '.' || c == '-')
    if numChars = [] then none else parseDecQ numChars

/-- The brace-matching loop shared by the `extract_nested_*` functions:
position one past the brace that closes the first `{` (the whole slice
length when unbalanced). -/
def braceScan : List Char → Nat → Int → Bool → Nat → Nat
  | [], _, _, _, len => len
  | c :: t, i, depth, started, len =>
    if c == '{' then braceScan t (i + 1) (depth + 1) true len
    else if c == '}' then
      (if started && (depth - 1 == 0) then i + 1 else braceScan t (i + 1) (depth - 1) started len)
    else braceScan t (i + 1) depth started len

/-- The common slice step of the `extract_nested_*` functions: the text from
`"parent":{` to its matching close brace. -/
def extract_nested_slice (json parent : String) : Option String :=
  let pat1 := "\"" ++ parent ++ "\":\x7b"
  let pat2 := "\"" ++ parent ++ "\" : \x7b"
  match (findSubFrom pat1.data json.data 0).orElse
      (fun _ => findSubFrom pat2.data json.data 0) with
  | none => none
  | some idx =>
    let content := json.data.drop idx
    some ⟨content.take (braceScan content 0 0 false content.length)⟩

/-- `extract_nested_string`. -/
def extract_nested_string (json parent key : String) : Option String :=
  (extract_nested_slice json parent).bind (fun nested => extract_string nested key)

/-- `extract_nested_u32`. -/
def extract_nested_u32 (json parent key : String) : Option Nat :=
  (extract_nested_slice json parent).bind (fun nested => extract_u32 nested key)

/-- `extract_nested_u64`. -/
def extract_nested_u64 (json parent key : String) : Option Nat :=
  (extract_nested_slice json parent).bind (fun nested => extract_u64 nested key)

/-- `extract_nested_f32`. -/
def extract_nested_f32 (json parent key : String) : Option ℚ :=
  (extract_nested_slice json parent).bind (fun nested => extract_f32 nested key)

/-- `parse_pm2_object`; `now_ms` stands for the wall clock read used to turn
`pm_uptime` into an elapsed duration. -/
def parse_pm2_object (now_ms : Nat) (json : String) : Option Pm2Process :=
  match extract_u32 json "pm_id" with
  | none => none
  | some pm_id =>
    let name := (extract_string json "name").getD "unknown"
    let pid := extract_u32 json "pid"
    let status := ((extract_nested_string json "pm2_env" "status").orElse
      (fun _ => extract_string json "status")).getD "unknown"
    let mode := match extract_nested_string json "pm2_env" "exec_mode" with
      | some m => if containsSubstr m "cluster" then "cluster" else "fork"
      | none => "fork"
    let restarts := (extract_nested_u32 json "pm2_env" "restart_time").getD 0
    let uptime_ms := (extract_nested_u64 json "pm2_env" "pm_uptime").bind
      (fun start => if now_ms > start then some (now_ms - start) else none)
    let memory_bytes := extract_nested_u64 json "monit" "memory"
    let cpu := extract_nested_f32 json "monit" "cpu"
    let script := extract_nested_string json "pm2_env" "pm_exec_path"
    some ⟨pm_id, name, mode, status, pid, cpu, memory_bytes, restarts, uptime_ms, script⟩

/-- `parse_pm2_json` (pm2.rs lines 75–109). -/
def parse_pm2_json (now_ms : Nat) (json_str : String) : Except Pm2Error (List Pm2Process) :=
  let trimmed := rustTrim json_str
  if trimmed = "[]" then Except.ok []
  else
    let afterPre : Option (List Char) :=
      match trimmed.data with
      | '[' :: rest => some rest
      | _ => none
    let inner : Option (List Char) := afterPre.bind (fun l =>
      match l.getLast? with
      | some c => if c == ']' then some l.dropLast else none
      | none => none)
    match inner with
    | none => Except.error (Pm2Error.ParseError "Invalid JSON array")
    | some innerChars =>
      if trimChars innerChars = [] then Except.ok []
      else Except.ok ((split_json_objects ⟨innerChars⟩).filterMap (parse_pm2_object now_ms))

/-- The PM2 JSON array of the C8 scenario. -/
def demoPm2Json : String :=
  "[\x7b\"pm_id\":0,\"name\":\"api\",\"pid\":55,\"pm2_env\":\x7b\"status\":\"online\",\"exec_mode\":\"cluster_mode\",\"restart_time\":3\x7d,\"monit\":\x7b\"cpu\":1.5,\"memory\":2048\x7d\x7d]"

set_option maxRecDepth 10000 in
/-- C8: the hand-rolled parser turns the scenario's one-element PM2 JSON
array into exactly one record: pm_id 0, name `api`, pid 55, mode `cluster`
(from `cluster_mode`), status `online`, 3 restarts, cpu 1.5, memory 2048. -/
theorem c8_pm2_json_scenario :
    parse_pm2_json 0 demoPm2Json
      = Except.ok [⟨0, "api", "cluster", "online", some 55, some (mkRat 3 2),
          some 2048, 3, none, none⟩] := by rfl

/-! ## Node collector: cluster-worker merge (node/mod.rs lines 176–217) -/

/-- One `groups.entry(key).or_default().push(proc)` step, in first-seen key
order (the `HashMap`'s iteration order is unspecified; every property proved
below is per-key and order-independent). -/
def pushEntry {α : Type} : List (String × List α) → String → α → List (String × List α)
  | [], k, a => [(k, [a])]
  | (k2, items) :: rest, k, a =>
    if k = k2 then (k2, items ++ [a]) :: rest
    else (k2, items) :: pushEntry rest k a

/-- Lookup of a grouping key's member list. -/
def lookupEntry {α : Type} (m : List (String × List α)) (k : String) : Option (List α) :=
  (m.find? (fun e => e.1 == k)).map Prod.snd

/-- The keys of the accumulated groups. -/
def entryKeys {α : Type} (m : List (String × List α)) : List String :=
  m.map Prod.fst

theorem lookupEntry_pushEntry {α : Type} (m : List (String × List α)) (k k2 : String) (a : α) :
    lookupEntry (pushEntry m k a) k2
      = if k2 = k then some ((lookupEntry m k2).getD [] ++ [a]) else lookupEntry m k2 := by
  induction m with
  | nil =>
    by_cases h : k2 = k
    · subst h
      simp [lookupEntry, pushEntry, List.find?]
    · have hbe : (k == k2) = false := by
        simp only [beq_eq_false_iff_ne]
        exact fun hh => h hh.symm
      simp [lookupEntry, pushEntry, List.find?, hbe, h]
  | cons e rest ih =>
    rcases e with ⟨k3, items⟩
    by_cases hk3 : k = k3
    · rw [show pushEntry ((k3, items) :: rest) k a = (k3, items ++ [a]) :: rest from
        by simp [pushEntry, hk3]]
      by_cases h2 : k2 = k
      · subst h2
        have hbe : (k3 == k2) = true := by simp [hk3.symm]
        simp [lookupEntry, List.find?_cons, hbe]
      · have hbe : (k3 == k2) = false := by
          simp only [beq_eq_false_iff_ne]
          exact fun hh => h2 (hk3 ▸ hh.symm)
        simp [lookupEntry, List.find?_cons, hbe, h2]
    · rw [show pushEntry ((k3, items) :: rest) k a = (k3, items) :: pushEntry rest k a from
        by simp [pushEntry, hk3]]
      by_cases hb2 : k3 = k2
      · have hne : ¬ k2 = k := fun hh => hk3 (hb2.trans hh).symm
        have hbe : (k3 == k2) = true := by simp [hb2]
        simp [lookupEntry, List.find?_cons, hbe, hne]
      · have hbe : (k3 == k2) = false := by simp [hb2]
        simp only [lookupEntry, List.find?_cons, hbe]
        simpa [lookupEntry] using ih

theorem entryKeys_pushEntry {α : Type} (m : List (String × List α)) (k : String) (a : α) :
    entryKeys (pushEntry m k a) = pushNew (entryKeys m) k := by
  induction m with
  | nil => simp [entryKeys, pushEntry, pushNew]
  | cons e rest ih =>
    rcases e with ⟨k3, items⟩
    by_cases hk3 : k = k3
    · rw [show pushEntry ((k3, items) :: rest) k a = (k3, items ++ [a]) :: rest from
        by simp [pushEntry, hk3]]
      show k3 :: entryKeys rest = pushNew (k3 :: entryKeys rest) k
      unfold pushNew
      rw [if_pos (show k ∈ k3 :: entryKeys rest from by
        rw [hk3]; exact List.mem_cons_self k3 (entryKeys rest))]
    · rw [show pushEntry ((k3, items) :: rest) k a = (k3, items) :: pushEntry rest k a from
        by simp [pushEntry, hk3]]
      show k3 :: entryKeys (pushEntry rest k a) = pushNew (k3 :: entryKeys rest) k
      rw [ih, pushNew_cons k3 (entryKeys rest) k hk3]

theorem lookupEntry_fold_getD {α : Type} (f : α → String) :
    ∀ (l : List α) (init : List (String × List α)) (k : String),
      (lookupEntry (l.foldl (fun acc p => pushEntry acc (f p) p) init) k).getD []
        = (lookupEntry init k).getD [] ++ l.filter (fun p => f p == k) := by
  intro l
  induction l with
  | nil => intro init k; simp
  | cons a t ih =>
    intro init k
    rw [List.foldl_cons, ih, lookupEntry_pushEntry]
    by_cases hk : k = f a
    · rw [if_pos hk, List.filter_cons, if_pos (by simp [hk.symm])]
      simp
    · rw [if_neg hk, List.filter_cons, if_neg (show ¬ ((f a == k) = true) from by
        simp only [beq_iff_eq]
        exact fun hh => hk hh.symm)]

theorem lookupEntry_fold_isSome {α : Type} (f : α → String) :
    ∀ (l : List α) (init : List (String × List α)) (k : String),
      (lookupEntry (l.foldl (fun acc p => pushEntry acc (f p) p) init) k).isSome
        = ((lookupEntry init k).isSome || !(l.filter (fun p => f p == k)).isEmpty) := by
  intro l
  induction l with
  | nil => intro init k; simp
  | cons a t ih =>
    intro init k
    rw [List.foldl_cons, ih, lookupEntry_pushEntry]
    by_cases hk : k = f a
    · rw [if_pos hk, List.filter_cons, if_pos (by simp [hk.symm])]
      simp
    · rw [if_neg hk, List.filter_cons, if_neg (show ¬ ((f a == k) = true) from by
        simp only [beq_iff_eq]
        exact fun hh => hk hh.symm)]

theorem entryKeys_fold {α : Type} (f : α → String) :
    ∀ (l : List α) (init : List (String × List α)),
      entryKeys (l.foldl (fun acc p => pushEntry acc (f p) p) init)
        = (l.map f).foldl pushNew (entryKeys init) := by
  intro l
  induction l with
  | nil => intro init; simp
  | cons a t ih =>
    intro init
    rw [List.foldl_cons, ih, entryKeys_pushEntry, List.map_cons, List.foldl_cons]

theorem find_entry_of_mem {α : Type} (m : List (String × List α)) (k : String)
    (items : List α) (hnd : (entryKeys m).Nodup) (hm : (k, items) ∈ m) :
    m.find? (fun e => e.1 == k) = some (k, items) := by
  induction m with
  | nil => cases hm
  | cons e rest ih =>
    rcases List.mem_cons.mp hm with he | ht
    · rw [← he]
      simp [List.find?_cons]
    · have hkrest : k ∈ entryKeys rest :=
        List.mem_map.mpr ⟨(k, items), ht, rfl⟩
      have hnd2 : (e.1 :: entryKeys rest).Nodup := by simpa [entryKeys] using hnd
      have hne : (e.1 == k) = false := by
        simp only [beq_eq_false_iff_ne]
        intro hh
        exact (List.nodup_cons.mp hnd2).1 (hh ▸ hkrest)
      rw [List.find?_cons, hne]
      exact ih (List.nodup_cons.mp hnd2).2 ht

theorem filter_key_length_one {α : Type} (m : List (String × List α)) (k : String)
    (hnd : (entryKeys m).Nodup) (hmem : k ∈ entryKeys m) :
    (m.filter (fun e => e.1 == k)).length = 1 := by
  induction m with
  | nil => cases hmem
  | cons e rest ih =>
    have hnd2 : (e.1 :: entryKeys rest).Nodup := by simpa [entryKeys] using hnd
    by_cases hk : e.1 = k
    · have hnone : rest.filter (fun x => x.1 == k) = [] := by
        apply List.filter_eq_nil_iff.mpr
        intro x hx
        simp only [beq_iff_eq]
        intro hh
        exact (List.nodup_cons.mp hnd2).1
          (hk ▸ hh ▸ List.mem_map.mpr ⟨x, hx, rfl⟩)
      rw [List.filter_cons, if_pos (by simp [hk]), hnone]
      rfl
    · have hmem2 : k ∈ entryKeys rest := by
        rcases List.mem_cons.mp (show k ∈ e.1 :: entryKeys rest from by
          simpa [entryKeys] using hmem) with hh | hh
        · exact absurd hh.symm hk
        · exact hh
      rw [List.filter_cons, if_neg (by simp [hk])]
      exact ih (List.nodup_cons.mp hnd2).2 hmem2

theorem insertLe_perm {α : Type} (le : α → α → Bool) (a : α) (l : List α) :
    List.Perm (insertLe le a l) (a :: l) := by
  induction l with
  | nil => simp [insertLe]
  | cons b t ih =>
    by_cases h : le a b
    · simp [insertLe, h]
    · rw [show insertLe le a (b :: t) = b :: insertLe le a t from by simp [insertLe, h]]
      exact (ih.cons b).trans (List.Perm.swap a b t)

theorem sortLe_perm {α : Type} (le : α → α → Bool) (l : List α) :
    List.Perm (sortLe le l) l := by
  induction l with
  | nil => simp [sortLe]
  | cons a t ih =>
    rw [show sortLe le (a :: t) = insertLe le a (sortLe le t) from rfl]
    exact (insertLe_perm le a (sortLe le t)).trans (ih.cons a)

/-- `sort_by_key(pid)`. -/
def nodePidLe (a b : NodeProcessInfo) : Bool :=
  decide (a.pid ≤ b.pid)

theorem sortByPid_head_min :
    ∀ (l : List NodeProcessInfo), l ≠ [] →
      ∃ p rest, sortLe nodePidLe l = p :: rest
        ∧ p ∈ l ∧ ∀ x ∈ l, p.pid ≤ x.pid := by
  intro l
  induction l with
  | nil => intro h; exact absurd rfl h
  | cons a t ih =>
    intro _
    cases t with
    | nil =>
      exact ⟨a, [], rfl, List.mem_cons_self a [], by
        intro x hx
        rcases List.mem_cons.mp hx with rfl | hx
        · exact Nat.le_refl _
        · cases hx⟩
    | cons b t2 =>
      obtain ⟨p, rest, heq, hmem, hmin⟩ := ih (by simp)
      have hstep : sortLe nodePidLe (a :: b :: t2)
          = insertLe nodePidLe a (sortLe nodePidLe (b :: t2)) := rfl
      rw [hstep, heq]
      by_cases hle : nodePidLe a p
      · refine ⟨a, p :: rest, by simp [insertLe, hle], List.mem_cons_self a _, ?_⟩
        intro x hx
        rcases List.mem_cons.mp hx with rfl | hx
        · exact Nat.le_refl _
        · exact Nat.le_trans (by simpa [nodePidLe] using hle) (hmin x hx)
      · refine ⟨p, insertLe nodePidLe a rest, by simp [insertLe, hle], ?_, ?_⟩
        · exact List.mem_cons_of_mem a hmem
        · intro x hx
          rcases List.mem_cons.mp hx with hxa | hx
          · rw [hxa]
            have hnp : ¬ a.pid ≤ p.pid := by simpa [nodePidLe] using hle
            omega
          · exact hmin x hx

/-- `group_cluster_workers`: merge one group into a single entry —
singleton groups pass through; larger groups are sorted by pid, the lowest
pid becomes the representative, CPU and memory are summed (the `u64` memory
sum wraps), worker-count is the member count. -/
def mergeGroup (g : List NodeProcessInfo) : NodeProcessInfo :=
  if g.length = 1 then g.headD nodeDefault
  else
    let sorted := sortLe nodePidLe g
    let primary := sorted.headD nodeDefault
    { primary with
      cpu := (sorted.map (fun p => p.cpu)).sum,
      memory_bytes := ((sorted.map (fun p => p.memory_bytes)).sum) % 2 ^ 64,
      worker_count := sorted.length,
      uses_nvm := sorted.any (fun p => p.uses_nvm) }

/-- `group_cluster_workers` (node/mod.rs lines 176–217): partition off the
PM2-managed processes, group the rest by script path, merge each group, and
append the untouched PM2 processes. -/
def group_cluster_workers (procs : List NodeProcessInfo) : List NodeProcessInfo :=
  let pm2 := procs.filter (fun p => p.pm2.isSome)
  let nonPm2 := procs.filter (fun p => p.pm2.isNone)
  let groups := nonPm2.foldl (fun acc p => pushEntry acc p.script p) []
  let merged := groups.map (fun e => mergeGroup e.2)
  merged ++ pm2

theorem mergeGroup_sums (g : List NodeProcessInfo) (h2 : 2 ≤ g.length) :
    (mergeGroup g).cpu = (g.map (fun q => q.cpu)).sum
  ∧ (mergeGroup g).memory_bytes = ((g.map (fun q => q.memory_bytes)).sum) % 2 ^ 64
  ∧ (mergeGroup g).worker_count = g.length
  ∧ ∃ q ∈ g, (mergeGroup g).pid = q.pid ∧ (mergeGroup g).script = q.script
      ∧ (mergeGroup g).pm2 = q.pm2 ∧ ∀ x ∈ g, (mergeGroup g).pid ≤ x.pid := by
  have hne : g ≠ [] := by
    intro h
    rw [h] at h2
    simp at h2
  have h1 : ¬ (g.length = 1) := by omega
  obtain ⟨p, rest, heq, hmem, hmin⟩ := sortByPid_head_min g hne
  have hperm : List.Perm (p :: rest) g := by
    rw [← heq]
    exact sortLe_perm nodePidLe g
  have hkey : mergeGroup g
      = { p with
          cpu := ((p :: rest).map (fun q => q.cpu)).sum,
          memory_bytes := (((p :: rest).map (fun q => q.memory_bytes)).sum) % 2 ^ 64,
          worker_count := (p :: rest).length,
          uses_nvm := (p :: rest).any (fun q => q.uses_nvm) } := by
    simp only [mergeGroup, if_neg h1, heq, List.headD_cons]
  refine ⟨?_, ?_, ?_, p, hmem, ?_, ?_, ?_, ?_⟩
  · rw [hkey]
    exact (hperm.map (fun q => q.cpu)).sum_eq
  · rw [hkey]
    rw [(hperm.map (fun q => q.memory_bytes)).sum_eq]
  · rw [hkey]
    exact hperm.length_eq
  · rw [hkey]
  · rw [hkey]
  · rw [hkey]
  · intro x hx
    rw [hkey]
    exact hmin x hx

theorem mergeGroup_member (g : List NodeProcessInfo) (hne : g ≠ []) :
    ∃ q ∈ g, (mergeGroup g).script = q.script ∧ (mergeGroup g).pm2 = q.pm2 := by
  by_cases h1 : g.length = 1
  · match g, h1 with
    | [x], _ =>
      refine ⟨x, List.mem_cons_self x [], ?_⟩
      simp [mergeGroup]
  · obtain ⟨p, rest, heq, hmem, hmin⟩ := sortByPid_head_min g hne
    refine ⟨p, hmem, ?_⟩
    constructor
    · simp only [mergeGroup, if_neg h1, heq, List.headD_cons]
    · simp only [mergeGroup, if_neg h1, heq, List.headD_cons]

/-- C9: non-PM2 processes sharing a script path are merged into one record —
CPU summed, memory summed (as `u64`), worker-count = member count, lowest
pid kept as representative — and PM2-managed processes are never merged. -/
theorem c9_cluster_worker_merge (procs : List NodeProcessInfo) (s : String)
    (h2 : 2 ≤ (procs.filter (fun p => p.pm2.isNone && p.script == s)).length) :
    ((group_cluster_workers procs).filter
        (fun p => p.pm2.isNone && p.script == s)).length = 1
  ∧ (∃ r ∈ group_cluster_workers procs,
      r.pm2 = none ∧ r.script = s
      ∧ r.cpu = ((procs.filter (fun p => p.pm2.isNone && p.script == s)).map
          (fun q => q.cpu)).sum
      ∧ r.memory_bytes = ((procs.filter (fun p => p.pm2.isNone && p.script == s)).map
          (fun q => q.memory_bytes)).sum % 2 ^ 64
      ∧ r.worker_count = (procs.filter (fun p => p.pm2.isNone && p.script == s)).length
      ∧ (∃ q ∈ procs.filter (fun p => p.pm2.isNone && p.script == s), r.pid = q.pid)
      ∧ ∀ q ∈ procs.filter (fun p => p.pm2.isNone && p.script == s), r.pid ≤ q.pid)
  ∧ (group_cluster_workers procs).filter (fun p => p.pm2.isSome)
      = procs.filter (fun p => p.pm2.isSome) := by
  have hout : group_cluster_workers procs
      = ((procs.filter (fun p => p.pm2.isNone)).foldl
          (fun acc p => pushEntry acc p.script p) []).map (fun e => mergeGroup e.2)
        ++ procs.filter (fun p => p.pm2.isSome) := rfl
  rw [hout]
  set grps := (procs.filter (fun p => p.pm2.isNone)).foldl
    (fun acc p => pushEntry acc p.script p) [] with hgrps
  have hkeys : entryKeys grps
      = ((procs.filter (fun p => p.pm2.isNone)).map (fun p => p.script)).foldl
          pushNew [] := by
    have h := entryKeys_fold (fun p : NodeProcessInfo => p.script)
      (procs.filter (fun p => p.pm2.isNone)) []
    simpa [entryKeys, hgrps] using h
  have hnodup : (entryKeys grps).Nodup := by
    rw [hkeys]
    exact pushNewFold_nodup _ [] (by simp)
  have hitems : ∀ k : String, (lookupEntry grps k).getD []
      = procs.filter (fun p => p.pm2.isNone && p.script == k) := by
    intro k
    have h := lookupEntry_fold_getD (fun p : NodeProcessInfo => p.script)
      (procs.filter (fun p => p.pm2.isNone)) [] k
    rw [List.filter_filter] at h
    have h2a : (procs.filter (fun a => a.script == k && a.pm2.isNone))
        = procs.filter (fun p => p.pm2.isNone && p.script == k) :=
      List.filter_congr (fun x _ => by rw [Bool.and_comm])
    rw [h2a] at h
    simpa [lookupEntry, hgrps] using h
  have hchar : ∀ e ∈ grps,
      e.2 = procs.filter (fun p => p.pm2.isNone && p.script == e.1) ∧ e.2 ≠ [] := by
    intro e he
    have hfind := find_entry_of_mem grps e.1 e.2 hnodup (by simpa using he)
    have hlook : lookupEntry grps e.1 = some e.2 := by
      simp [lookupEntry, hfind]
    have h1 : e.2 = procs.filter (fun p => p.pm2.isNone && p.script == e.1) := by
      have hk := hitems e.1
      rw [hlook] at hk
      simpa using hk
    refine ⟨h1, ?_⟩
    intro hnil
    have hkmem : e.1 ∈ entryKeys grps := List.mem_map.mpr ⟨e, he, rfl⟩
    rw [hkeys] at hkmem
    have hm2 : e.1 ∈ (procs.filter (fun p => p.pm2.isNone)).map (fun p => p.script) := by
      have hmm := (mem_pushNewFold _ [] e.1).mp hkmem
      simpa using hmm
    rcases List.mem_map.mp hm2 with ⟨x, hx, hxs⟩
    have hxin : x ∈ procs.filter (fun p => p.pm2.isNone && p.script == e.1) := by
      have hxf := List.mem_filter.mp hx
      exact List.mem_filter.mpr ⟨hxf.1, by simp [hxs, hxf.2]⟩
    rw [← h1, hnil] at hxin
    cases hxin
  have hGne : procs.filter (fun p => p.pm2.isNone && p.script == s) ≠ [] := by
    intro h
    rw [h] at h2
    simp at h2
  have hsmem : s ∈ entryKeys grps := by
    rw [hkeys]
    apply (mem_pushNewFold _ [] s).mpr
    right
    obtain ⟨x, hx⟩ := List.exists_mem_of_ne_nil _ hGne
    have hx2 := List.mem_filter.mp hx
    have hx3 : x.pm2.isNone = true ∧ x.script = s := by
      have hb := hx2.2
      simp only [Bool.and_eq_true, beq_iff_eq] at hb
      exact hb
    refine List.mem_map.mpr ⟨x, ?_, hx3.2⟩
    exact List.mem_filter.mpr ⟨hx2.1, hx3.1⟩
  obtain ⟨ent, hent_mem, hent_key⟩ : ∃ e ∈ grps, e.1 = s := by
    rcases List.mem_map.mp hsmem with ⟨e, he, hk⟩
    exact ⟨e, he, hk⟩
  obtain ⟨hent_items0, hent_ne⟩ := hchar ent hent_mem
  have hent_items : ent.2 = procs.filter (fun p => p.pm2.isNone && p.script == s) := by
    rw [hent_items0, hent_key]
  have hglen : 2 ≤ ent.2.length := by
    rw [hent_items]
    exact h2
  obtain ⟨hcpu, hmemb, hwc, q, hq_mem, hq_pid, hq_script, hq_pm2, hq_min⟩ :=
    mergeGroup_sums ent.2 hglen
  have hq_in_g : q ∈ procs.filter (fun p => p.pm2.isNone && p.script == s) :=
    hent_items ▸ hq_mem
  have hq_facts := List.mem_filter.mp hq_in_g
  have hq2 : q.pm2 = none ∧ q.script = s := by
    have hb := hq_facts.2
    simp only [Bool.and_eq_true, beq_iff_eq, Option.isNone_iff_eq_none] at hb
    exact hb
  have hpred : ∀ e ∈ grps,
      ((mergeGroup e.2).pm2.isNone && (mergeGroup e.2).script == s) = (e.1 == s) := by
    intro e he
    obtain ⟨hitems_e, hne_e⟩ := hchar e he
    obtain ⟨q2, hq2_mem, hq2_script, hq2_pm2⟩ := mergeGroup_member e.2 hne_e
    have hq2f := List.mem_filter.mp (hitems_e ▸ hq2_mem)
    have hq2facts : q2.pm2 = none ∧ q2.script = e.1 := by
      have hb := hq2f.2
      simp only [Bool.and_eq_true, beq_iff_eq, Option.isNone_iff_eq_none] at hb
      exact hb
    rw [hq2_script, hq2_pm2, hq2facts.2, hq2facts.1]
    simp
  refine ⟨?_, ⟨mergeGroup ent.2, ?_, ?_, ?_, ?_, ?_, ?_, ?_, ?_⟩, ?_⟩
  · rw [List.filter_append]
    have hpm2nil : (procs.filter (fun p => p.pm2.isSome)).filter
        (fun p => p.pm2.isNone && p.script == s) = [] := by
      apply List.filter_eq_nil_iff.mpr
      intro x hx
      have hb := (List.mem_filter.mp hx).2
      simp [Option.isNone_iff_eq_none, Option.isSome_iff_exists] at hb ⊢
      rcases hb with ⟨v, hv⟩
      simp [hv]
    rw [hpm2nil, List.append_nil]
    rw [List.map_filter]
    have hfc : grps.filter ((fun p => p.pm2.isNone && p.script == s) ∘
        (fun e => mergeGroup e.2)) = grps.filter (fun e => e.1 == s) := by
      apply List.filter_congr
      intro e he
      simpa [Function.comp_def] using hpred e he
    rw [hfc, List.length_map]
    exact filter_key_length_one grps s hnodup hsmem
  · exact List.mem_append_left _ (List.mem_map.mpr ⟨ent, hent_mem, rfl⟩)
  · exact hq_pm2.trans hq2.1
  · exact hq_script.trans hq2.2
  · rw [hcpu, hent_items]
  · rw [hmemb, hent_items]
  · rw [hwc, hent_items]
  · exact ⟨q, hq_in_g, hq_pid⟩
  · intro x hx
    exact hq_min x (hent_items ▸ hx)
  · rw [List.filter_append]
    have h1 : (grps.map (fun e => mergeGroup e.2)).filter (fun p => p.pm2.isSome) = [] := by
      apply List.filter_eq_nil_iff.mpr
      intro x hx
      rcases List.mem_map.mp hx with ⟨e, he, hxe⟩
      obtain ⟨hitems_e, hne_e⟩ := hchar e he
      obtain ⟨q2, hq2_mem, _, hq2_pm2⟩ := mergeGroup_member e.2 hne_e
      have hq2f := List.mem_filter.mp (hitems_e ▸ hq2_mem)
      have hq2none : q2.pm2 = none := by
        have hb := hq2f.2
        simp only [Bool.and_eq_true, beq_iff_eq, Option.isNone_iff_eq_none] at hb
        exact hb.1
      rw [← hxe]
      simp [hq2_pm2, hq2none]
    have h2b : (procs.filter (fun p => p.pm2.isSome)).filter (fun p => p.pm2.isSome)
        = procs.filter (fun p => p.pm2.isSome) := by
      apply List.filter_eq_self.mpr
      intro x hx
      exact (List.mem_filter.mp hx).2
    rw [h1, h2b, List.nil_append]

/-- Two manually forked cluster workers of the same script (pids 41 and 40). -/
def demoWorker1 : NodeProcessInfo :=
  ⟨41, "node", "/app/server.js", some "myapp", false, none, 2, 1000, some 10, none, 1⟩

/-- Second worker of the same script, with the lowest pid. -/
def demoWorker2 : NodeProcessInfo :=
  ⟨40, "node", "/app/server.js", some "myapp", false, none, 3, 500, some 20, none, 1⟩

/-- A PM2-managed process, which must never be merged. -/
def demoPm2Proc : NodeProcessInfo :=
  ⟨50, "api", "/app/api.js", none, false, none, 1, 64, some 5,
   some ⟨0, "api", "cluster", "online", 3, none⟩, 1⟩

/-- The node-process list of the C9 witness. -/
def demoNodeProcs : List NodeProcessInfo :=
  [demoWorker1, demoWorker2, demoPm2Proc]

theorem c9_cluster_worker_merge_witness :
    2 ≤ (demoNodeProcs.filter
        (fun p => p.pm2.isNone && p.script == "/app/server.js")).length
  ∧ (((group_cluster_workers demoNodeProcs).filter
        (fun p => p.pm2.isNone && p.script == "/app/server.js")).length = 1
    ∧ (∃ r ∈ group_cluster_workers demoNodeProcs,
        r.pm2 = none ∧ r.script = "/app/server.js"
        ∧ r.cpu = ((demoNodeProcs.filter
            (fun p => p.pm2.isNone && p.script == "/app/server.js")).map
            (fun q => q.cpu)).sum
        ∧ r.memory_bytes = ((demoNodeProcs.filter
            (fun p => p.pm2.isNone && p.script == "/app/server.js")).map
            (fun q => q.memory_bytes)).sum % 2 ^ 64
        ∧ r.worker_count = (demoNodeProcs.filter
            (fun p => p.pm2.isNone && p.script == "/app/server.js")).length
        ∧ (∃ q ∈ demoNodeProcs.filter
            (fun p => p.pm2.isNone && p.script == "/app/server.js"), r.pid = q.pid)
        ∧ ∀ q ∈ demoNodeProcs.filter
            (fun p => p.pm2.isNone && p.script == "/app/server.js"), r.pid ≤ q.pid)
    ∧ (group_cluster_workers demoNodeProcs).filter (fun p => p.pm2.isSome)
        = demoNodeProcs.filter (fun p => p.pm2.isSome)) :=
  ⟨by decide, c9_cluster_worker_merge demoNodeProcs "/app/server.js" (by decide)⟩

/-! ## Process collector: tree rows (src/system/process.rs) -/

/-- `ProcInfo` (`cpu : f32` as `ℚ`). -/
structure ProcInfo where
  pid : Nat
  name : String
  name_lower : String
  cpu : ℚ
  memory_bytes : Nat
  user : String
  exe_path : String
  parent : Option Nat
  container : Option String
  is_thread : Bool
deriving Repr, DecidableEq

/-- `TreeRow` (`prefix` field renamed `pfx`: `prefix` is reserved in Lean). -/
structure TreeRow where
  pid : Nat
  pfx : String
deriving Repr, DecidableEq

/-- The process snapshot `HashMap<Pid, ProcInfo>` as an association list in
iteration order. -/
def lookupProc (procs : List (Nat × ProcInfo)) (pid : Nat) : Option ProcInfo :=
  (procs.find? (fun e => e.1 == pid)).map Prod.snd

/-- `is_skipped_parent`: PID 1 or the desktop-shell process. -/
def is_skipped_parent (pid : Nat) (procs : List (Nat × ProcInfo)) : Bool :=
  if pid = 1 then true
  else
    match lookupProc procs pid with
    | some info => info.name == "gnome-shell"
    | none => false

/-- The `is_child` flag computed by `build_tree_rows`' first loop (the same
value in both tree modes): the process has a parent other than itself that
is present in the snapshot and is not a skip-ancestor. -/
def isChildB (procs : List (Nat × ProcInfo)) (pid : Nat) (info : ProcInfo) : Bool :=
  match info.parent with
  | some parent =>
    (parent != pid) && (lookupProc procs parent).isSome
      && !(is_skipped_parent parent procs)
  | none => false

/-- `children.entry(parent).or_default().push(pid)` on an association list. -/
def pushChild : List (Nat × List Nat) → Nat → Nat → List (Nat × List Nat)
  | [], parent, pid => [(parent, [pid])]
  | (k, kids) :: rest, parent, pid =>
    if parent = k then (k, kids ++ [pid]) :: rest
    else (k, kids) :: pushChild rest parent pid

/-- One iteration of `build_tree_rows`' roots/children loop. -/
def rootsChildrenStep (procs : List (Nat × ProcInfo)) (show_children : Bool)
    (acc : List (Nat × List Nat) × List Nat) (e : Nat × ProcInfo) :
    List (Nat × List Nat) × List Nat :=
  let res : List (Nat × List Nat) × Bool :=
    match (e.2).parent with
    | some parent =>
      let has_parent := (parent != e.1) && (lookupProc procs parent).isSome
      let skipped := has_parent && is_skipped_parent parent procs
      if show_children && has_parent && !skipped then (pushChild acc.1 parent e.1, true)
      else if has_parent && !skipped then (acc.1, true)
      else (acc.1, false)
    | none => (acc.1, false)
  (res.1, if res.2 then acc.2 else acc.2 ++ [e.1])

/-- The roots/children loop of `build_tree_rows`. -/
def buildRootsChildren (procs : List (Nat × ProcInfo)) (show_children : Bool) :
    List (Nat × List Nat) × List Nat :=
  procs.foldl (rootsChildrenStep procs show_children) ([], [])

/-- `cmp_f32` (`partial_cmp` with an `Equal` fallback; total on `ℚ`, the
fallback is only reachable through `f32` NaN). -/
def cmp_f32 (a b : ℚ) : Ordering :=
  compare a b

/-- `compare_proc`. -/
def compare_proc (a b : ProcInfo) (sb : SortBy) : Ordering :=
  match sb with
  | SortBy.Cpu => cmp_f32 a.cpu b.cpu
  | SortBy.Memory => compare a.memory_bytes b.memory_bytes
  | SortBy.Name => compare a.name_lower b.name_lower

/-- The comparator of `sort_pid_list` with pid tiebreak. -/
def pidCompare (procs : List (Nat × ProcInfo)) (sb : SortBy) (a b : Nat) : Ordering :=
  let o := match lookupProc procs a, lookupProc procs b with
    | some x, some y => compare_proc x y sb
    | some _, none => Ordering.lt
    | none, some _ => Ordering.gt
    | none, none => Ordering.eq
  if o = Ordering.eq then compare a b else o

/-- `sort_pid_list`: stable ascending sort by the comparator, reversed for
descending order. -/
def sort_pid_list (procs : List (Nat × ProcInfo)) (sb : SortBy) (so : SortOrder)
    (pids : List Nat) : List Nat :=
  let sorted := sortLe (fun a b => (pidCompare procs sb a b).isLE) pids
  match so with
  | SortOrder.Asc => sorted
  | SortOrder.Desc => sorted.reverse

/-- `children.get(&pid)` with the missing case as an empty sibling list. -/
def lookupChildren (children : List (Nat × List Nat)) (pid : Nat) : List Nat :=
  ((children.find? (fun e => e.1 == pid)).map Prod.snd).getD []

/-- `build_tree_prefix`. -/
def build_tree_prefix (ancestor_last : List Bool) (is_last : Bool) : String :=
  if ancestor_last = [] then ""
  else
    String.join (ancestor_last.map (fun last => if last then "   " else "│  "))
      ++ (if is_last then "└─ " else "├─ ")

mutual
/-- `push_tree_rows`; the source recursion is unbounded (the OS guarantees an
acyclic parent relation), so the embedding carries fuel — one unit per row,
`procs.length + 1` at the top level is never exhausted on acyclic input. -/
def push_tree_rows (children : List (Nat × List Nat)) (fuel : Nat) (pid : Nat)
    (is_last : Bool) (ancestor_last : List Bool) : List TreeRow :=
  match fuel with
  | 0 => []
  | f + 1 =>
    ⟨pid, build_tree_prefix ancestor_last is_last⟩ ::
      walkSiblings children f (lookupChildren children pid) (ancestor_last ++ [is_last])
termination_by (fuel, 0)

/-- The sibling loops of `push_tree_rows` and of the root loop in
`build_tree_rows` (`is_last` = no further siblings). -/
def walkSiblings (children : List (Nat × List Nat)) (fuel : Nat) (kids : List Nat)
    (ancestor_last : List Bool) : List TreeRow :=
  match kids with
  | [] => []
  | k :: rest =>
    push_tree_rows children fuel k rest.isEmpty ancestor_last
      ++ walkSiblings children fuel rest ancestor_last
termination_by (fuel, kids.length + 1)
end

/-- `build_tree_rows` (process.rs lines 103–154). -/
def build_tree_rows (procs : List (Nat × ProcInfo)) (sb : SortBy) (so : SortOrder)
    (show_children : Bool) : List TreeRow :=
  let rc := buildRootsChildren procs show_children
  let roots := sort_pid_list procs sb so rc.2
  if show_children then
    walkSiblings (rc.1.map (fun e => (e.1, sort_pid_list procs sb so e.2)))
      (procs.length + 1) roots []
  else
    roots.map (fun pid => ⟨pid, ""⟩)

theorem rootsChildrenStep_false (procs : List (Nat × ProcInfo))
    (acc : List (Nat × List Nat) × List Nat) (e : Nat × ProcInfo) :
    rootsChildrenStep procs false acc e
      = (acc.1, if isChildB procs e.1 e.2 then acc.2 else acc.2 ++ [e.1]) := by
  rcases e with ⟨pid, info⟩
  simp only [rootsChildrenStep, isChildB]
  cases hp : info.parent with
  | none => simp
  | some parent =>
    cases hhp : ((parent != pid) && (lookupProc procs parent).isSome) <;>
      cases hsk : is_skipped_parent parent procs <;>
        simp [hhp, hsk]

theorem buildRoots_false (procs : List (Nat × ProcInfo)) :
    ∀ (l : List (Nat × ProcInfo)) (acc : List (Nat × List Nat) × List Nat),
      (l.foldl (rootsChildrenStep procs false) acc).2
        = acc.2 ++ (l.filter (fun e => !(isChildB procs e.1 e.2))).map Prod.fst := by
  intro l
  induction l with
  | nil => intro acc; simp
  | cons e rest ih =>
    intro acc
    rw [List.foldl_cons, rootsChildrenStep_false, ih, List.filter_cons]
    by_cases hc : isChildB procs e.1 e.2
    · simp [hc]
    · simp [hc]

theorem mem_unique_key {α : Type} (l : List (Nat × α)) (hnd : (l.map Prod.fst).Nodup)
    (k : Nat) (a b : α) (ha : (k, a) ∈ l) (hb : (k, b) ∈ l) : a = b := by
  induction l with
  | nil => cases ha
  | cons e rest ih =>
    have hnd2 : (e.1 :: rest.map Prod.fst).Nodup := by simpa using hnd
    rcases List.mem_cons.mp ha with hea | ha2 <;> rcases List.mem_cons.mp hb with heb | hb2
    · have : (k, a) = (k, b) := hea.trans heb.symm
      exact (Prod.mk.injEq _ _ _ _ ▸ this).2
    · exfalso
      have hk : e.1 = k := by rw [← hea]
      have hm : k ∈ rest.map Prod.fst := List.mem_map.mpr ⟨(k, b), hb2, rfl⟩
      exact (List.nodup_cons.mp hnd2).1 (hk ▸ hm)
    · exfalso
      have hk : e.1 = k := by rw [← heb]
      have hm : k ∈ rest.map Prod.fst := List.mem_map.mpr ⟨(k, a), ha2, rfl⟩
      exact (List.nodup_cons.mp hnd2).1 (hk ▸ hm)
    · exact ih (List.nodup_cons.mp hnd2).2 ha2 hb2

/-- Snapshot with process 3 (no parent) and process 2 (child of 3; 3 is not
a skip-ancestor). -/
def demoTreeProcs : List (Nat × ProcInfo) :=
  [(2, ⟨2, "worker", "worker", 0, 10, "u", "-", some 3, none, false⟩),
   (3, ⟨3, "daemon", "daemon", 0, 20, "u", "-", none, none, false⟩)]

/-- C3 counterexample: with tree mode disabled, `build_tree_rows` returns
only the root (pid 3); the child process (pid 2) appears in no row, so the
claim "one row per process, no process is ever dropped" is false. -/
theorem c3_counterexample :
    demoTreeProcs.map Prod.fst = [2, 3]
  ∧ (build_tree_rows demoTreeProcs SortBy.Name SortOrder.Asc false).map TreeRow.pid
      = [3] := by
  decide

/-- C3 (amended): with tree mode disabled, `build_tree_rows` returns exactly
the sorted roots with empty prefixes; a process with a visible (non-skipped,
in-snapshot, non-self) parent is classified as a child and omitted from the
rows — it is not re-classified as top-level. -/
theorem c3_flat_rows_are_roots_only (procs : List (Nat × ProcInfo)) (sb : SortBy)
    (so : SortOrder) (hnd : (procs.map Prod.fst).Nodup) :
    (∀ r ∈ build_tree_rows procs sb so false, TreeRow.pfx r = "")
  ∧ (build_tree_rows procs sb so false).length
      = (procs.filter (fun e => !(isChildB procs e.1 e.2))).length
  ∧ (∀ pid info, (pid, info) ∈ procs →
      ((∃ r ∈ build_tree_rows procs sb so false, TreeRow.pid r = pid)
        ↔ isChildB procs pid info = false)) := by
  have hrows : build_tree_rows procs sb so false
      = (sort_pid_list procs sb so (buildRootsChildren procs false).2).map
          (fun pid => ⟨pid, ""⟩) := rfl
  have hroots : (buildRootsChildren procs false).2
      = (procs.filter (fun e => !(isChildB procs e.1 e.2))).map Prod.fst := by
    have h := buildRoots_false procs procs ([], [])
    simpa [buildRootsChildren] using h
  have hperm : List.Perm (sort_pid_list procs sb so (buildRootsChildren procs false).2)
      ((buildRootsChildren procs false).2) := by
    cases so with
    | Asc => exact sortLe_perm _ _
    | Desc =>
      exact (List.reverse_perm _).trans (sortLe_perm _ _)
  refine ⟨?_, ?_, ?_⟩
  · intro r hr
    rw [hrows] at hr
    rcases List.mem_map.mp hr with ⟨pid, _, hre⟩
    rw [← hre]
  · rw [hrows, List.length_map, hperm.length_eq, hroots, List.length_map]
  · intro pid info hmem
    constructor
    · rintro ⟨r, hr, hrp⟩
      rw [hrows] at hr
      rcases List.mem_map.mp hr with ⟨pid2, hp2, hre⟩
      have hpid2 : pid2 = pid := by rw [← hrp, ← hre]
      have hp3 : pid ∈ (buildRootsChildren procs false).2 :=
        hperm.mem_iff.mp (hpid2 ▸ hp2)
      rw [hroots] at hp3
      rcases List.mem_map.mp hp3 with ⟨e, hef, hefst⟩
      have hef2 := List.mem_filter.mp hef
      have hmem_e : (pid, e.2) ∈ procs := by
        have heta : (e.1, e.2) = e := rfl
        rw [← hefst, heta]
        exact hef2.1
      have hinfo : e.2 = info := mem_unique_key procs hnd pid e.2 info hmem_e hmem
      have hb := hef2.2
      rw [hefst, hinfo] at hb
      simpa using hb
    · intro hnc
      have hin : (pid, info) ∈ procs.filter (fun e => !(isChildB procs e.1 e.2)) :=
        List.mem_filter.mpr ⟨hmem, by simp [hnc]⟩
      have hp3 : pid ∈ (buildRootsChildren procs false).2 := by
        rw [hroots]
        exact List.mem_map.mpr ⟨(pid, info), hin, rfl⟩
      have hp4 := hperm.mem_iff.mpr hp3
      rw [hrows]
      exact ⟨⟨pid, ""⟩, List.mem_map.mpr ⟨pid, hp4, rfl⟩, rfl⟩

theorem c3_flat_rows_are_roots_only_witness :
    (demoTreeProcs.map Prod.fst).Nodup
  ∧ ((∀ r ∈ build_tree_rows demoTreeProcs SortBy.Name SortOrder.Asc false,
        TreeRow.pfx r = "")
    ∧ (build_tree_rows demoTreeProcs SortBy.Name SortOrder.Asc false).length
        = (demoTreeProcs.filter (fun e => !(isChildB demoTreeProcs e.1 e.2))).length
    ∧ (∀ pid info, (pid, info) ∈ demoTreeProcs →
        ((∃ r ∈ build_tree_rows demoTreeProcs SortBy.Name SortOrder.Asc false,
            TreeRow.pid r = pid)
          ↔ isChildB demoTreeProcs pid info = false))) :=
  ⟨by decide, c3_flat_rows_are_roots_only demoTreeProcs SortBy.Name SortOrder.Asc (by decide)⟩

/-! ## Multi-process memory aggregation (process.rs lines 243–526).
PSS reads, cgroup paths and cgroup memory counters are filesystem reads,
passed in as oracles fixed for the duration of a snapshot (the 10-second PSS
TTL cache of the source keeps them fixed across an immediate re-run). -/

/-- `get_app_family`: the fixed substring classification table. -/
def get_app_family (nl : String) : Option String :=
  if containsSubstr nl "chrome" || containsSubstr nl "chromium" then some "chrome"
  else if containsSubstr nl "firefox" || containsSubstr nl "geckodriver" then some "firefox"
  else if containsSubstr nl "idea" || containsSubstr nl "webstorm"
      || containsSubstr nl "phpstorm" || containsSubstr nl "pycharm"
      || containsSubstr nl "rubymine" || containsSubstr nl "goland"
      || containsSubstr nl "clion" || containsSubstr nl "rider"
      || containsSubstr nl "datagrip" || containsSubstr nl "dataspell"
      || containsSubstr nl "appcode" || containsSubstr nl "android-studio"
    then some "jetbrains"
  else if containsSubstr nl "code" && !containsSubstr nl "codec" then some "vscode"
  else if containsSubstr nl "slack" then some "slack"
  else if containsSubstr nl "discord" then some "discord"
  else if containsSubstr nl "spotify" then some "spotify"
  else if containsSubstr nl "teams" then some "teams"
  else if containsSubstr nl "obsidian" then some "obsidian"
  else if containsSubstr nl "notion" then some "notion"
  else if containsSubstr nl "postman" then some "postman"
  else if containsSubstr nl "figma" then some "figma"
  else if containsSubstr nl "gitkraken" then some "gitkraken"
  else if containsSubstr nl "insomnia" then some "insomnia"
  else if containsSubstr nl "eclipse" then some "eclipse"
  else if containsSubstr nl "netbeans" then some "netbeans"
  else none

/-- The `app_families` grouping loop of
`apply_multiprocess_memory_aggregation`: non-thread processes bucketed by
family (each process has at most one family, so buckets are disjoint). -/
def familiesOf (procs : List (Nat × ProcInfo)) : List (String × List Nat) :=
  procs.foldl
    (fun acc e =>
      if (e.2).is_thread then acc
      else
        match get_app_family (e.2).name_lower with
        | some fam => pushEntry acc fam e.1
        | none => acc)
    []

/-- Minimum of a pid list (`candidates.sort(); candidates.first()` and
`pids.iter().min()`). -/
def listMin : List Nat → Option Nat
  | [] => none
  | a :: t => some (t.foldl min a)

/-- `find_family_root`: the lowest pid whose parent is not in the same
family, falling back to the lowest family pid (0 when the family is empty). -/
def find_family_root (pids : List Nat) (procs : List (Nat × ProcInfo))
    (family : String) : Nat :=
  let candidates := pids.filter (fun pid =>
    match lookupProc procs pid with
    | some info =>
      !(match info.parent with
        | some parent =>
          match lookupProc procs parent with
          | some pinfo => get_app_family pinfo.name_lower == some family
          | none => false
        | none => false)
    | none => false)
  match listMin candidates with
  | some r => r
  | none => (listMin pids).getD 0

/-- `memory_for_pid` with the PSS oracle; threads report 0, a failed PSS
read falls back to the process's current `memory_bytes` (0 when the pid is
gone).  The source's per-call `mem_cache` memoizes a pure function, queried
once per pid, and is therefore transparent to the result. -/
def memory_for_pid (pss : Nat → Option Nat) (procs : List (Nat × ProcInfo))
    (pid : Nat) : Nat :=
  match lookupProc procs pid with
  | some info => if info.is_thread then 0 else (pss pid).getD info.memory_bytes
  | none => (pss pid).getD 0

/-- `read_cgroup_memory_if_unified` over the cgroup-path and cgroup-memory
oracles: all members must share the first member's path (missing paths are
skipped) and the path must look application-specific. -/
def read_cgroup_memory_if_unified (cgPath : Nat → Option String)
    (cgMem : String → Option Nat) (pids : List Nat) (app : String) : Option Nat :=
  match pids with
  | [] => none
  | p0 :: rest =>
    match cgPath p0 with
    | none => none
    | some first =>
      if rest.all (fun p =>
          match cgPath p with
          | some c => c == first
          | none => true) then
        let pl := asciiLower first
        if containsSubstr pl app || containsSubstr pl "app-"
            || (containsSubstr pl ".scope" && !containsSubstr pl "session") then
          cgMem first
        else none
      else none

/-- Overwrite one pid's `memory_bytes` (`processes.get_mut(&root_pid)`). -/
def storeMem (procs : List (Nat × ProcInfo)) (r : Nat) (t : Nat) :
    List (Nat × ProcInfo) :=
  procs.map (fun e => if e.1 == r then (e.1, { e.2 with memory_bytes := t }) else e)

/-- One family's total: the unified cgroup counter when available, else the
saturating sum of the members' PSS-or-fallback memory. -/
def famTotal (pss : Nat → Option Nat) (cgPath : Nat → Option String)
    (cgMem : String → Option Nat) (procs : List (Nat × ProcInfo))
    (fam : String × List Nat) : Nat :=
  match read_cgroup_memory_if_unified cgPath cgMem fam.2 fam.1 with
  | some m => m
  | none => fam.2.foldl (fun acc pid => satAdd acc (memory_for_pid pss procs pid)) 0

/-- One iteration of the family loop: compute the root and total, store the
total on the root. -/
def aggregate_family (pss : Nat → Option Nat) (cgPath : Nat → Option String)
    (cgMem : String → Option Nat) (procs : List (Nat × ProcInfo))
    (fam : String × List Nat) : List (Nat × ProcInfo) :=
  if fam.2.isEmpty then procs
  else storeMem procs (find_family_root fam.2 procs fam.1)
    (famTotal pss cgPath cgMem procs fam)

/-- `apply_multiprocess_memory_aggregation` (process.rs lines 245–290). -/
def apply_multiprocess_memory_aggregation (pss : Nat → Option Nat)
    (cgPath : Nat → Option String) (cgMem : String → Option Nat)
    (procs : List (Nat × ProcInfo)) : List (Nat × ProcInfo) :=
  (familiesOf procs).foldl (aggregate_family pss cgPath cgMem) procs

/-- The memory total recorded for a pid. -/
def memOfPid (procs : List (Nat × ProcInfo)) (pid : Nat) : Option Nat :=
  (lookupProc procs pid).map (fun i => i.memory_bytes)

/-- Two chrome processes, 100 bytes RSS each, child 2 under root 1. -/
def demoChromeProcs : List (Nat × ProcInfo) :=
  [(1, ⟨1, "chrome", "chrome", 0, 100, "u", "-", none, none, false⟩),
   (2, ⟨2, "chrome", "chrome", 0, 100, "u", "-", some 1, none, false⟩)]

/-- PSS reads fail (e.g. permission denied on smaps_rollup). -/
def noPss : Nat → Option Nat := fun _ => none

/-- No cgroup paths resolve. -/
def noCgPath : Nat → Option String := fun _ => none

/-- No cgroup memory counters resolve. -/
def noCgMem : String → Option Nat := fun _ => none

/-- C2 counterexample: when PSS is unavailable, the first run stores
100 + 100 = 200 on root 1; re-running re-reads the root's fallback RSS —
now the aggregated 200 — and stores 200 + 100 = 300, so the claimed
idempotence fails on the code at this snapshot. -/
theorem c2_counterexample :
    memOfPid (apply_multiprocess_memory_aggregation noPss noCgPath noCgMem
        demoChromeProcs) 1 = some 200
  ∧ memOfPid (apply_multiprocess_memory_aggregation noPss noCgPath noCgMem
      (apply_multiprocess_memory_aggregation noPss noCgPath noCgMem
        demoChromeProcs)) 1 = some 300 := by
  decide

/-- The fields of a process that the aggregation logic reads but never
writes: name, lowercase name, thread flag, parent. -/
def procShape (i : ProcInfo) : String × String × Bool × Option Nat :=
  (i.name, i.name_lower, i.is_thread, i.parent)

/-- The shape of a snapshot: everything except the mutable memory totals. -/
def shapeOf (procs : List (Nat × ProcInfo)) : List (Nat × (String × String × Bool × Option Nat)) :=
  procs.map (fun e => (e.1, procShape e.2))

theorem shapeOf_storeMem (m : List (Nat × ProcInfo)) (r t : Nat) :
    shapeOf (storeMem m r t) = shapeOf m := by
  induction m with
  | nil => rfl
  | cons e rest ih =>
    simp only [storeMem, shapeOf, List.map_cons] at *
    by_cases h : e.1 == r
    · simp only [h, if_pos]
      rw [show ({ e.2 with memory_bytes := t } : ProcInfo).pid = e.2.pid from rfl]
      refine congrArg₂ List.cons rfl ?_
      simpa [storeMem, shapeOf] using ih
    · simp only [h]
      rw [if_neg (by simp_all)]
      refine congrArg₂ List.cons rfl ?_
      simpa [storeMem, shapeOf] using ih

theorem lookupProc_map_shape (m : List (Nat × ProcInfo)) :
    ∀ (m2 : List (Nat × ProcInfo)), shapeOf m = shapeOf m2 → ∀ p : Nat,
      (lookupProc m p).map procShape = (lookupProc m2 p).map procShape := by
  induction m with
  | nil =>
    intro m2 hsh p
    cases m2 with
    | nil => rfl
    | cons b t => simp [shapeOf] at hsh
  | cons e t ih =>
    intro m2 hsh p
    cases m2 with
    | nil => simp [shapeOf] at hsh
    | cons e2 t2 =>
      simp only [shapeOf, List.map_cons, List.cons.injEq, Prod.mk.injEq] at hsh
      obtain ⟨⟨h1, h2⟩, h3⟩ := hsh
      simp only [lookupProc, List.find?_cons]
      by_cases hp : e.1 == p
      · have hp2 : (e2.1 == p) = true := by
          rw [← h1]
          exact hp
        simp only [hp, hp2]
        simpa using h2
      · have hp2 : (e2.1 == p) = false := by
          rw [← h1]
          simpa using hp
        have hpb : (e.1 == p) = false := by simpa using hp
        simp only [hpb, hp2]
        have := ih t2 (by simpa [shapeOf] using h3) p
        simpa [lookupProc] using this

theorem option_shape_cases {o1 o2 : Option ProcInfo}
    (h : o1.map procShape = o2.map procShape) :
    (o1 = none ∧ o2 = none)
    ∨ (∃ i1 i2, o1 = some i1 ∧ o2 = some i2 ∧ procShape i1 = procShape i2) := by
  cases o1 with
  | none =>
    cases o2 with
    | none => exact Or.inl ⟨rfl, rfl⟩
    | some b => simp at h
  | some a =>
    cases o2 with
    | none => simp at h
    | some b =>
      refine Or.inr ⟨a, b, rfl, rfl, ?_⟩
      simpa using h

theorem is_skipped_parent_congr (m m2 : List (Nat × ProcInfo))
    (hsh : shapeOf m = shapeOf m2) (p : Nat) :
    is_skipped_parent p m = is_skipped_parent p m2 := by
  unfold is_skipped_parent
  by_cases h1 : p = 1
  · simp [h1]
  · rcases option_shape_cases (lookupProc_map_shape m m2 hsh p) with ⟨ha, hb⟩ | ⟨i1, i2, ha, hb, hs⟩
    · rw [ha, hb]
    · rw [ha, hb]
      have hn : i1.name = i2.name := congrArg (fun s => s.1) hs
      simp [hn]

theorem find_family_root_congr (pids : List Nat) (m m2 : List (Nat × ProcInfo))
    (hsh : shapeOf m = shapeOf m2) (family : String) :
    find_family_root pids m family = find_family_root pids m2 family := by
  unfold find_family_root
  have hfc : pids.filter (fun pid =>
      match lookupProc m pid with
      | some info =>
        !(match info.parent with
          | some parent =>
            match lookupProc m parent with
            | some pinfo => get_app_family pinfo.name_lower == some family
            | none => false
          | none => false)
      | none => false)
    = pids.filter (fun pid =>
      match lookupProc m2 pid with
      | some info =>
        !(match info.parent with
          | some parent =>
            match lookupProc m2 parent with
            | some pinfo => get_app_family pinfo.name_lower == some family
            | none => false
          | none => false)
      | none => false) := by
    apply List.filter_congr
    intro pid _
    rcases option_shape_cases (lookupProc_map_shape m m2 hsh pid) with
      ⟨ha, hb⟩ | ⟨i1, i2, ha, hb, hs⟩
    · rw [ha, hb]
    · rw [ha, hb]
      have hpar : i1.parent = i2.parent := congrArg (fun s => s.2.2.2) hs
      rw [show (match some i1 with
          | some info =>
            !(match info.parent with
              | some parent =>
                match lookupProc m parent with
                | some pinfo => get_app_family pinfo.name_lower == some family
                | none => false
              | none => false)
          | none => false)
        = !(match i1.parent with
            | some parent =>
              match lookupProc m parent with
              | some pinfo => get_app_family pinfo.name_lower == some family
              | none => false
            | none => false) from rfl]
      rw [show (match some i2 with
          | some info =>
            !(match info.parent with
              | some parent =>
                match lookupProc m2 parent with
                | some pinfo => get_app_family pinfo.name_lower == some family
                | none => false
              | none => false)
          | none => false)
        = !(match i2.parent with
            | some parent =>
              match lookupProc m2 parent with
              | some pinfo => get_app_family pinfo.name_lower == some family
              | none => false
            | none => false) from rfl]
      rw [hpar]
      cases hpp : i2.parent with
      | none => rfl
      | some parent =>
        rcases option_shape_cases (lookupProc_map_shape m m2 hsh parent) with
          ⟨hc, hd⟩ | ⟨j1, j2, hc, hd, hs2⟩
        · show (!(match lookupProc m parent with
              | some pinfo => get_app_family pinfo.name_lower == some family
              | none => false))
            = (!(match lookupProc m2 parent with
              | some pinfo => get_app_family pinfo.name_lower == some family
              | none => false))
          rw [hc, hd]
        · show (!(match lookupProc m parent with
              | some pinfo => get_app_family pinfo.name_lower == some family
              | none => false))
            = (!(match lookupProc m2 parent with
              | some pinfo => get_app_family pinfo.name_lower == some family
              | none => false))
          rw [hc, hd]
          have hnl : j1.name_lower = j2.name_lower := congrArg (fun s => s.2.1) hs2
          show (!(get_app_family j1.name_lower == some family))
            = (!(get_app_family j2.name_lower == some family))
          rw [hnl]
  rw [hfc]

theorem memory_for_pid_congr (pss : Nat → Option Nat) (m m2 : List (Nat × ProcInfo))
    (hsh : shapeOf m = shapeOf m2) (pid : Nat) (hp : (pss pid).isSome) :
    memory_for_pid pss m pid = memory_for_pid pss m2 pid := by
  obtain ⟨v, hv⟩ := Option.isSome_iff_exists.mp hp
  unfold memory_for_pid
  rcases option_shape_cases (lookupProc_map_shape m m2 hsh pid) with
    ⟨ha, hb⟩ | ⟨i1, i2, ha, hb, hs⟩
  · rw [ha, hb]
  · rw [ha, hb]
    show (if i1.is_thread then 0 else (pss pid).getD i1.memory_bytes)
      = (if i2.is_thread then 0 else (pss pid).getD i2.memory_bytes)
    have hth : i1.is_thread = i2.is_thread := congrArg (fun s => s.2.2.1) hs
    rw [hth, hv]
    by_cases ht : i2.is_thread <;> simp [ht]

theorem famTotal_congr (pss : Nat → Option Nat) (cgPath : Nat → Option String)
    (cgMem : String → Option Nat) (m m2 : List (Nat × ProcInfo))
    (hsh : shapeOf m = shapeOf m2) (hpss : ∀ p, (pss p).isSome)
    (fam : String × List Nat) :
    famTotal pss cgPath cgMem m fam = famTotal pss cgPath cgMem m2 fam := by
  unfold famTotal
  cases read_cgroup_memory_if_unified cgPath cgMem fam.2 fam.1 with
  | some v => rfl
  | none =>
    show fam.2.foldl (fun acc pid => satAdd acc (memory_for_pid pss m pid)) 0
      = fam.2.foldl (fun acc pid => satAdd acc (memory_for_pid pss m2 pid)) 0
    have hfold : ∀ (l : List Nat) (acc : Nat),
        l.foldl (fun acc pid => satAdd acc (memory_for_pid pss m pid)) acc
          = l.foldl (fun acc pid => satAdd acc (memory_for_pid pss m2 pid)) acc := by
      intro l
      induction l with
      | nil => intro acc; rfl
      | cons p rest ih =>
        intro acc
        rw [List.foldl_cons, List.foldl_cons,
          memory_for_pid_congr pss m m2 hsh p (hpss p)]
        exact ih _
    exact hfold fam.2 0

/-- The update list a run of the family loop performs, computed against a
fixed reference snapshot: one `(root, total)` store per non-empty family. -/
def updatesOf (pss : Nat → Option Nat) (cgPath : Nat → Option String)
    (cgMem : String → Option Nat) (base : List (Nat × ProcInfo))
    (fams : List (String × List Nat)) : List (Nat × Nat) :=
  fams.filterMap (fun fam =>
    if fam.2.isEmpty then none
    else some (find_family_root fam.2 base fam.1,
      famTotal pss cgPath cgMem base fam))

/-- Replay a list of `(pid, total)` stores. -/
def applyUpdates (m : List (Nat × ProcInfo)) (ups : List (Nat × Nat)) :
    List (Nat × ProcInfo) :=
  ups.foldl (fun acc u => storeMem acc u.1 u.2) m

/-- The last total stored on a pid by an update list, if any. -/
def lastStore : List (Nat × Nat) → Nat → Option Nat
  | [], _ => none
  | u :: t, pid =>
    match lastStore t pid with
    | some v => some v
    | none => if u.1 == pid then some u.2 else none

theorem shapeOf_applyUpdates (ups : List (Nat × Nat)) :
    ∀ m : List (Nat × ProcInfo), shapeOf (applyUpdates m ups) = shapeOf m := by
  induction ups with
  | nil => intro m; rfl
  | cons u rest ih =>
    intro m
    show shapeOf (applyUpdates (storeMem m u.1 u.2) rest) = shapeOf m
    rw [ih (storeMem m u.1 u.2), shapeOf_storeMem]

theorem lookupProc_cons (x : Nat × ProcInfo) (l : List (Nat × ProcInfo))
    (pid : Nat) :
    lookupProc (x :: l) pid = if x.1 == pid then some x.2 else lookupProc l pid := by
  cases hx : x.1 == pid with
  | true =>
    rw [if_pos rfl]
    show Option.map Prod.snd (List.find? (fun e => e.1 == pid) (x :: l))
      = some x.2
    have hf : List.find? (fun e => e.1 == pid) (x :: l) = some x := by
      simp only [List.find?]
      rw [hx]
    rw [hf]
    rfl
  | false =>
    rw [if_neg (by simp)]
    show Option.map Prod.snd (List.find? (fun e => e.1 == pid) (x :: l))
      = Option.map Prod.snd (List.find? (fun e => e.1 == pid) l)
    have hf : List.find? (fun e => e.1 == pid) (x :: l)
        = List.find? (fun e => e.1 == pid) l := by
      simp only [List.find?]
      rw [hx]
    rw [hf]

theorem storeMem_cons (e : Nat × ProcInfo) (l : List (Nat × ProcInfo))
    (r t : Nat) :
    storeMem (e :: l) r t
      = (if e.1 == r then (e.1, { e.2 with memory_bytes := t }) else e)
        :: storeMem l r t := rfl

theorem lookup_storeMem (m : List (Nat × ProcInfo)) (r t pid : Nat) :
    lookupProc (storeMem m r t) pid =
      if r == pid then
        (lookupProc m pid).map (fun i => { i with memory_bytes := t })
      else lookupProc m pid := by
  induction m with
  | nil =>
    by_cases h : r == pid
    · rw [if_pos h]; rfl
    · rw [if_neg h]
      rfl
  | cons e rest ih =>
    rw [storeMem_cons]
    by_cases hq : r == pid
    · have hq' : r = pid := by simpa using hq
      rw [if_pos hq]
      by_cases hep : e.1 == pid
      · have her : (e.1 == r) = true := by
          have : e.1 = pid := by simpa using hep
          simp [this, hq']
        rw [if_pos her, lookupProc_cons, lookupProc_cons, if_pos hep]
        show some { e.2 with memory_bytes := t } = _
        rw [if_pos hep]
        rfl
      · have her : (e.1 == r) = false := by
          have : ¬ e.1 = pid := by simpa using hep
          simp [hq']
          exact this
        rw [if_neg (by simp [her]), lookupProc_cons, lookupProc_cons,
          if_neg (by simp [hep]), if_neg (by simp [hep]), ih, if_pos hq]
    · have hq' : ¬ r = pid := by simpa using hq
      rw [if_neg hq]
      by_cases her : e.1 == r
      · have hep : (e.1 == pid) = false := by
          have : e.1 = r := by simpa using her
          simp [this]
          exact hq'
        rw [if_pos her, lookupProc_cons, lookupProc_cons]
        show (if (e.1 == pid) = true then some { e.2 with memory_bytes := t }
            else lookupProc (storeMem rest r t) pid) = _
        rw [if_neg (by simp [hep]), if_neg (by simp [hep]), ih, if_neg hq]
      · rw [if_neg (by simp at her ⊢; exact her), lookupProc_cons,
          lookupProc_cons]
        by_cases hep : e.1 == pid
        · rw [if_pos hep, if_pos hep]
        · rw [if_neg (by simp at hep ⊢; exact hep),
            if_neg (by simp at hep ⊢; exact hep), ih, if_neg hq]

theorem lookup_applyUpdates (ups : List (Nat × Nat)) :
    ∀ (m : List (Nat × ProcInfo)) (pid : Nat),
      lookupProc (applyUpdates m ups) pid =
        match lastStore ups pid with
        | some t => (lookupProc m pid).map (fun i => { i with memory_bytes := t })
        | none => lookupProc m pid := by
  induction ups with
  | nil => intro m pid; rfl
  | cons u rest ih =>
    intro m pid
    show lookupProc (applyUpdates (storeMem m u.1 u.2) rest) pid = _
    rw [ih (storeMem m u.1 u.2) pid]
    cases hls : lastStore rest pid with
    | some t =>
      have hcons : lastStore (u :: rest) pid = some t := by
        simp [lastStore, hls]
      rw [hcons]
      show (lookupProc (storeMem m u.1 u.2) pid).map
          (fun i => { i with memory_bytes := t }) = _
      rw [lookup_storeMem]
      by_cases hu : u.1 == pid
      · rw [if_pos hu]
        cases lookupProc m pid <;> rfl
      · rw [if_neg hu]
    | none =>
      have hcons : lastStore (u :: rest) pid
          = if u.1 == pid then some u.2 else none := by
        simp [lastStore, hls]
      rw [hcons]
      show lookupProc (storeMem m u.1 u.2) pid = _
      rw [lookup_storeMem]
      by_cases hu : u.1 == pid
      · rw [if_pos hu, if_pos hu]
      · rw [if_neg hu, if_neg hu]

theorem lookup_applyUpdates_idem (m : List (Nat × ProcInfo))
    (ups : List (Nat × Nat)) (pid : Nat) :
    lookupProc (applyUpdates (applyUpdates m ups) ups) pid
      = lookupProc (applyUpdates m ups) pid := by
  rw [lookup_applyUpdates ups (applyUpdates m ups) pid,
    lookup_applyUpdates ups m pid]
  cases hls : lastStore ups pid with
  | none => rfl
  | some t => cases lookupProc m pid <;> rfl

theorem familiesOf_congr (m : List (Nat × ProcInfo)) :
    ∀ m2 : List (Nat × ProcInfo), shapeOf m = shapeOf m2 →
      familiesOf m = familiesOf m2 := by
  have haux : ∀ (l : List (Nat × ProcInfo)) (l2 : List (Nat × ProcInfo)),
      shapeOf l = shapeOf l2 → ∀ acc : List (String × List Nat),
      l.foldl (fun acc e =>
          if (e.2).is_thread then acc
          else
            match get_app_family (e.2).name_lower with
            | some fam => pushEntry acc fam e.1
            | none => acc) acc
        = l2.foldl (fun acc e =>
          if (e.2).is_thread then acc
          else
            match get_app_family (e.2).name_lower with
            | some fam => pushEntry acc fam e.1
            | none => acc) acc := by
    intro l
    induction l with
    | nil =>
      intro l2 hsh acc
      cases l2 with
      | nil => rfl
      | cons b t => simp [shapeOf] at hsh
    | cons e t ih =>
      intro l2 hsh acc
      cases l2 with
      | nil => simp [shapeOf] at hsh
      | cons e2 t2 =>
        simp only [shapeOf, List.map_cons, List.cons.injEq, Prod.mk.injEq] at hsh
        obtain ⟨⟨h1, h2⟩, h3⟩ := hsh
        have hth : (e.2).is_thread = (e2.2).is_thread :=
          congrArg (fun s => s.2.2.1) h2
        have hnl : (e.2).name_lower = (e2.2).name_lower :=
          congrArg (fun s => s.2.1) h2
        rw [List.foldl_cons, List.foldl_cons]
        have hstep : (if (e.2).is_thread then acc
            else
              match get_app_family (e.2).name_lower with
              | some fam => pushEntry acc fam e.1
              | none => acc)
          = (if (e2.2).is_thread then acc
            else
              match get_app_family (e2.2).name_lower with
              | some fam => pushEntry acc fam e2.1
              | none => acc) := by
          rw [hth, hnl, h1]
        rw [hstep]
        exact ih t2 (by simpa [shapeOf] using h3) _
  intro m2 hsh
  exact haux m m2 hsh []

theorem aggFold_as_updates (pss : Nat → Option Nat)
    (cgPath : Nat → Option String) (cgMem : String → Option Nat)
    (base : List (Nat × ProcInfo)) (hpss : ∀ p, (pss p).isSome) :
    ∀ (fams : List (String × List Nat)) (m : List (Nat × ProcInfo)),
      shapeOf m = shapeOf base →
      fams.foldl (aggregate_family pss cgPath cgMem) m
        = applyUpdates m (updatesOf pss cgPath cgMem base fams) := by
  intro fams
  induction fams with
  | nil => intro m _; rfl
  | cons fam rest ih =>
    intro m hm
    rw [List.foldl_cons]
    by_cases he : fam.2.isEmpty
    · have hag : aggregate_family pss cgPath cgMem m fam = m := by
        unfold aggregate_family
        rw [if_pos he]
      have hupd : updatesOf pss cgPath cgMem base (fam :: rest)
          = updatesOf pss cgPath cgMem base rest := by
        show List.filterMap (fun fam =>
            if fam.2.isEmpty then none
            else some (find_family_root fam.2 base fam.1,
              famTotal pss cgPath cgMem base fam)) (fam :: rest)
          = List.filterMap (fun fam =>
            if fam.2.isEmpty then none
            else some (find_family_root fam.2 base fam.1,
              famTotal pss cgPath cgMem base fam)) rest
        rw [List.filterMap_cons, if_pos he]
      rw [hag, hupd]
      exact ih m hm
    · have hag : aggregate_family pss cgPath cgMem m fam
          = storeMem m (find_family_root fam.2 base fam.1)
              (famTotal pss cgPath cgMem base fam) := by
        rw [show aggregate_family pss cgPath cgMem m fam
            = storeMem m (find_family_root fam.2 m fam.1)
                (famTotal pss cgPath cgMem m fam) from by
          unfold aggregate_family
          rw [if_neg he]]
        rw [find_family_root_congr fam.2 m base hm fam.1,
          famTotal_congr pss cgPath cgMem m base hm hpss fam]
      have hupd : updatesOf pss cgPath cgMem base (fam :: rest)
          = (find_family_root fam.2 base fam.1,
              famTotal pss cgPath cgMem base fam)
            :: updatesOf pss cgPath cgMem base rest := by
        show List.filterMap (fun fam =>
            if fam.2.isEmpty then none
            else some (find_family_root fam.2 base fam.1,
              famTotal pss cgPath cgMem base fam)) (fam :: rest)
          = _
        rw [List.filterMap_cons, if_neg he]
        rfl
      rw [hag, hupd]
      exact ih (storeMem m (find_family_root fam.2 base fam.1)
          (famTotal pss cgPath cgMem base fam))
        (by rw [shapeOf_storeMem]; exact hm)

/-- C2 (amended): when the PSS read succeeds for every pid, re-running
`apply_multiprocess_memory_aggregation` changes nothing: the family
partition, each family's root and each family's total depend only on the
immutable part of the snapshot (names, thread flags, parents) and on the
oracles, never on the mutated `memory_bytes` fields, so the second run
replays exactly the stores of the first and every lookup agrees. -/
theorem c2_memory_aggregation_idempotent_with_pss (pss : Nat → Option Nat)
    (cgPath : Nat → Option String) (cgMem : String → Option Nat)
    (procs : List (Nat × ProcInfo)) (hpss : ∀ p, (pss p).isSome) (pid : Nat) :
    lookupProc (apply_multiprocess_memory_aggregation pss cgPath cgMem
        (apply_multiprocess_memory_aggregation pss cgPath cgMem procs)) pid
      = lookupProc
          (apply_multiprocess_memory_aggregation pss cgPath cgMem procs) pid := by
  have hsh1 : shapeOf (applyUpdates procs
        (updatesOf pss cgPath cgMem procs (familiesOf procs)))
      = shapeOf procs :=
    shapeOf_applyUpdates (updatesOf pss cgPath cgMem procs (familiesOf procs))
      procs
  have h1 : apply_multiprocess_memory_aggregation pss cgPath cgMem procs
      = applyUpdates procs (updatesOf pss cgPath cgMem procs (familiesOf procs)) :=
    aggFold_as_updates pss cgPath cgMem procs hpss (familiesOf procs) procs rfl
  have h2 : apply_multiprocess_memory_aggregation pss cgPath cgMem
        (apply_multiprocess_memory_aggregation pss cgPath cgMem procs)
      = applyUpdates
          (applyUpdates procs
            (updatesOf pss cgPath cgMem procs (familiesOf procs)))
          (updatesOf pss cgPath cgMem procs (familiesOf procs)) := by
    rw [h1]
    show (familiesOf (applyUpdates procs
          (updatesOf pss cgPath cgMem procs (familiesOf procs)))).foldl
        (aggregate_family pss cgPath cgMem)
        (applyUpdates procs
          (updatesOf pss cgPath cgMem procs (familiesOf procs))) = _
    rw [familiesOf_congr (applyUpdates procs
        (updatesOf pss cgPath cgMem procs (familiesOf procs))) procs hsh1]
    exact aggFold_as_updates pss cgPath cgMem procs hpss (familiesOf procs)
      (applyUpdates procs (updatesOf pss cgPath cgMem procs (familiesOf procs)))
      hsh1
  rw [h2, h1]
  exact lookup_applyUpdates_idem procs
    (updatesOf pss cgPath cgMem procs (familiesOf procs)) pid

/-- PSS reads all succeed with 77 bytes. -/
def demoPss : Nat → Option Nat := fun _ => some 77

theorem c2_memory_aggregation_idempotent_with_pss_witness :
    (∀ p : Nat, (demoPss p).isSome)
    ∧ lookupProc (apply_multiprocess_memory_aggregation demoPss noCgPath noCgMem
          (apply_multiprocess_memory_aggregation demoPss noCgPath noCgMem
            demoChromeProcs)) 1
      = lookupProc (apply_multiprocess_memory_aggregation demoPss noCgPath
          noCgMem demoChromeProcs) 1 :=
  ⟨fun _ => rfl,
    c2_memory_aggregation_idempotent_with_pss demoPss noCgPath noCgMem
      demoChromeProcs (fun _ => rfl) 1⟩
